import Mathlib

/-!
# Digester: serial and parallel MD5 of a file tree

A shallow embedding of `main.go`.

* The tree walker (`filepath.Walk`), the file reader (`ioutil.ReadFile`) and the digest
  (`md5.Sum`) are external.  The walker is the sequence of callback invocations it makes
  (`Entry`), the reader's outcome is recorded per entry, the digest is a parameter `hash`.
  The callback's errors are the walker's own access errors, the reader's errors and the
  cancellation error; none of them is `filepath.SkipDir`, so the first error the callback
  returns ends the walk and is the result of `filepath.Walk`.
* `MD5AllSerial` is a fold over the entries.
* `MD5AllParallel` with `sumFiles` is a transition system: one program counter for the
  collector (the body of `MD5AllParallel`), one for the producer goroutine, one for each
  hashing goroutine, one for the closer goroutine, and the shared objects `c`, `errc`,
  `done` and `wg`.  A schedule is a list of `Action`s; every interleaving of the goroutines
  is a schedule.  A step runs one goroutine up to and including its next operation on a
  shared object (`wg.Add`, `go`, a channel operation, `wg.Done`, `wg.Wait`, `close`); the
  send of a unit on the unbuffered `c` and the collector's receive are one step.  Operations
  that panic in Go (send on a closed channel, second `close`, negative counter) lead to a
  state marked `panicked`, from which nothing moves.
-/

namespace Digester

/-! ## Data model -/

/-- File contents, as returned by `ioutil.ReadFile`. -/
abbrev Bytes := List Nat

/-- The value `[md5.Size]byte`, kept abstract as a number. -/
abbrev Digest := Nat

/-- The Go type `map[string][md5.Size]byte`: the head binding of a key shadows older ones. -/
abbrev DigestMap := List (String × Digest)

/-- The assignment `m[path] = sum`. -/
def DigestMap.set (m : DigestMap) (path : String) (sum : Digest) : DigestMap :=
  (path, sum) :: m

/-- The lookup `m[path]`. -/
def DigestMap.get (m : DigestMap) (path : String) : Option Digest :=
  m.lookup path

/-- Error values.  Go compares errors by identity, so an error handed to the callback by the
walker, an error returned by `ioutil.ReadFile` and the value made by
`errors.New("walk cancelled")` are never the same value. -/
inductive Err where
  | traversal (code : Nat)
  | read (code : Nat)
  | walkCancelled
  deriving DecidableEq

/-- One invocation of the walk callback `func(path, info, err)`, together with what
`ioutil.ReadFile(path)` answers for that path. -/
structure Entry where
  /-- The argument `path`. -/
  path : String
  /-- The argument `err`: `none` is `nil`. -/
  accessErr : Option Nat
  /-- The value of `info.Mode().IsRegular()`. -/
  isRegular : Bool
  /-- The bytes returned by `ioutil.ReadFile(path)`. -/
  data : Bytes
  /-- The error returned by `ioutil.ReadFile(path)`: `none` is `nil`. -/
  readErr : Option Nat
  deriving DecidableEq

/-- The pair `(map[string][md5.Size]byte, error)` returned by both variants; `none` is `nil`. -/
abbrev Outcome := Option DigestMap × Option Err

/-- The struct `result`. -/
structure result where
  path : String
  sum : Digest
  err : Option Err
  deriving DecidableEq

/-! ## MD5AllSerial -/

/-- What the serial callback does to the outside world. -/
inductive SerialEvent where
  | readFile (path : String)
  | md5Sum (path : String)
  deriving DecidableEq

/-- The walk of `MD5AllSerial`: the callback is applied to the entries in order until it returns
an error.  The state is the map `m` and the log of reads and hashes made so far. -/
def serialWalk (hash : Bytes → Digest) :
    List Entry → DigestMap → List SerialEvent → Option Err × DigestMap × List SerialEvent
  | [], m, log => (none, m, log)
  | e :: rest, m, log =>
    match e.accessErr with
    | some c => (some (Err.traversal c), m, log)
    | none =>
      if !e.isRegular then serialWalk hash rest m log
      else
        match e.readErr with
        | some c => (some (Err.read c), m, log ++ [SerialEvent.readFile e.path])
        | none =>
          serialWalk hash rest (m.set e.path (hash e.data))
            (log ++ [SerialEvent.readFile e.path, SerialEvent.md5Sum e.path])

/-- The function `MD5AllSerial`. -/
def MD5AllSerial (hash : Bytes → Digest) (entries : List Entry) : Outcome :=
  match (serialWalk hash entries [] []).1 with
  | some err => (none, some err)
  | none => (some (serialWalk hash entries [] []).2.1, none)

/-- The reads and hashes made by `MD5AllSerial`, in order. -/
def serialLog (hash : Bytes → Digest) (entries : List Entry) : List SerialEvent :=
  (serialWalk hash entries [] []).2.2

/-! ## MD5AllParallel and sumFiles -/

/-- Program counter of a hashing goroutine (lines 131-138). -/
inductive UnitPc where
  /-- Inside `ioutil.ReadFile(path)`. -/
  | reading
  /-- At the `select` between `c <- result` and `<-done`. -/
  | selecting
  /-- After the `select`, before `wg.Done()`. -/
  | finishing
  /-- After `wg.Done()`: the goroutine is over. -/
  | terminated
  deriving DecidableEq

/-- A hashing goroutine: the entry it was started for and its program counter. -/
structure HashUnit where
  entry : Entry
  pc : UnitPc
  deriving DecidableEq

/-- Program counter of the producer goroutine (lines 119-158). -/
inductive ProdPc where
  /-- The walker is about to call the callback on the head of `rest`, or to return `nil`. -/
  | visit (rest : List Entry)
  /-- The callback ran `wg.Add(1)` for `e`; the `go` statement is next. -/
  | spawn (e : Entry) (rest : List Entry)
  /-- The callback is at the `select` on `done`. -/
  | check (rest : List Entry)
  /-- The call `filepath.Walk` returned `r`; starting the closer is next. -/
  | walked (r : Option Err)
  /-- The closer is started; `errc <- err` is next. -/
  | publish (r : Option Err)
  /-- The goroutine is over. -/
  | finished
  deriving DecidableEq

/-- Program counter of the closer goroutine (lines 151-154). -/
inductive CloserPc where
  /-- The `go` statement of line 151 has not run. -/
  | absent
  /-- At `wg.Wait()`. -/
  | waiting
  /-- Past `wg.Wait()`, before `close(c)`. -/
  | closing
  /-- After `close(c)`. -/
  | finished
  deriving DecidableEq

/-- Program counter of the collector, the body of `MD5AllParallel` after `sumFiles` returned. -/
inductive CollPc where
  /-- At the receive of `for r := range c`, with the map built so far. -/
  | loop (m : DigestMap)
  /-- The loop ended because `c` is closed; at `<-errc`. -/
  | drain (m : DigestMap)
  /-- A `return` statement set the results; the deferred `close(done)` is next. -/
  | exiting (out : Outcome)
  /-- The call `MD5AllParallel` returned `out`. -/
  | returned (out : Outcome)
  deriving DecidableEq

/-- A state of the pipeline. -/
structure State where
  coll : CollPc
  prod : ProdPc
  /-- The hashing goroutines, in the order they were started. -/
  units : List HashUnit
  closer : CloserPc
  /-- The counter of `wg`. -/
  wg : Nat
  /-- Whether `c` is closed. -/
  cClosed : Bool
  /-- The buffer of `errc`, of capacity one. -/
  errc : Option (Option Err)
  /-- Whether `done` is closed. -/
  done : Bool
  /-- Whether a goroutine panicked (send on a closed channel, close of a closed channel,
  negative `wg` counter). -/
  panicked : Bool
  deriving DecidableEq

/-- The state right after `sumFiles` returned: channels made, producer goroutine started. -/
def init (entries : List Entry) : State :=
  { coll := CollPc.loop [], prod := ProdPc.visit entries, units := [],
    closer := CloserPc.absent, wg := 0, cClosed := false, errc := none, done := false,
    panicked := false }

/-- The scheduler's choices. -/
inductive Action where
  /-- The producer goroutine makes its next step. -/
  | producer
  /-- The call `ioutil.ReadFile` of unit `j` returns. -/
  | read (j : Nat)
  /-- The `select` of unit `j` takes `c <- result`, which the collector receives. -/
  | send (j : Nat)
  /-- The `select` of unit `j` takes `<-done`. -/
  | abandon (j : Nat)
  /-- Unit `j` runs `wg.Done()` and ends. -/
  | wgDone (j : Nat)
  /-- The closer goroutine makes its next step. -/
  | closer
  /-- The collector makes a step other than receiving a result: it sees `c` closed, receives
  from `errc`, or runs the deferred `close(done)` and returns. -/
  | collector
  deriving DecidableEq

/-- The value `result{path, md5.Sum(data), err}` a unit sends. -/
def mkResult (hash : Bytes → Digest) (e : Entry) : result :=
  { path := e.path, sum := hash e.data, err := e.readErr.map Err.read }

/-- A step of the producer goroutine. -/
def stepProducer (s : State) : Option State :=
  match s.prod with
  | ProdPc.visit [] => some { s with prod := ProdPc.walked none }
  | ProdPc.visit (e :: rest) =>
    match e.accessErr with
    | some c => some { s with prod := ProdPc.walked (some (Err.traversal c)) }
    | none =>
      if !e.isRegular then some { s with prod := ProdPc.visit rest }
      else some { s with prod := ProdPc.spawn e rest, wg := s.wg + 1 }
  | ProdPc.spawn e rest =>
    some { s with prod := ProdPc.check rest, units := s.units ++ [⟨e, UnitPc.reading⟩] }
  | ProdPc.check rest =>
    if s.done then some { s with prod := ProdPc.walked (some Err.walkCancelled) }
    else some { s with prod := ProdPc.visit rest }
  | ProdPc.walked r => some { s with prod := ProdPc.publish r, closer := CloserPc.waiting }
  | ProdPc.publish r =>
    match s.errc with
    | none => some { s with prod := ProdPc.finished, errc := some r }
    | some _ => none
  | ProdPc.finished => none

/-- The collector receives `r` inside `for r := range c`. -/
def receive (m : DigestMap) (r : result) : CollPc :=
  match r.err with
  | some err => CollPc.exiting (none, some err)
  | none => CollPc.loop (m.set r.path r.sum)

/-- A step of hashing unit `j`, with the kind of step the scheduler chose. -/
def stepUnit (hash : Bytes → Digest) (s : State) (j : Nat) (a : Action) : Option State :=
  match s.units.get? j with
  | none => none
  | some u =>
    match a, u.pc with
    | Action.read _, UnitPc.reading =>
      some { s with units := s.units.set j { u with pc := UnitPc.selecting } }
    | Action.send _, UnitPc.selecting =>
      if s.cClosed then some { s with panicked := true }
      else
        match s.coll with
        | CollPc.loop m =>
          some { s with units := s.units.set j { u with pc := UnitPc.finishing },
                        coll := receive m (mkResult hash u.entry) }
        | _ => none
    | Action.abandon _, UnitPc.selecting =>
      if s.done then some { s with units := s.units.set j { u with pc := UnitPc.finishing } }
      else none
    | Action.wgDone _, UnitPc.finishing =>
      if s.wg = 0 then some { s with panicked := true }
      else some { s with units := s.units.set j { u with pc := UnitPc.terminated },
                         wg := s.wg - 1 }
    | _, _ => none

/-- A step of the closer goroutine. -/
def stepCloser (s : State) : Option State :=
  match s.closer with
  | CloserPc.waiting => if s.wg = 0 then some { s with closer := CloserPc.closing } else none
  | CloserPc.closing =>
    if s.cClosed then some { s with panicked := true }
    else some { s with closer := CloserPc.finished, cClosed := true }
  | _ => none

/-- A step of the collector that is not the receipt of a result. -/
def stepCollector (s : State) : Option State :=
  match s.coll with
  | CollPc.loop m => if s.cClosed then some { s with coll := CollPc.drain m } else none
  | CollPc.drain m =>
    match s.errc with
    | none => none
    | some (some err) => some { s with coll := CollPc.exiting (none, some err), errc := none }
    | some none => some { s with coll := CollPc.exiting (some m, none), errc := none }
  | CollPc.exiting out => some { s with coll := CollPc.returned out, done := true }
  | CollPc.returned _ => none

/-- One step of the pipeline; `none` when the chosen goroutine cannot move.  A panic stops
everything. -/
def step (hash : Bytes → Digest) (s : State) (a : Action) : Option State :=
  if s.panicked then none
  else
    match a with
    | Action.producer => stepProducer s
    | Action.read j => stepUnit hash s j a
    | Action.send j => stepUnit hash s j a
    | Action.abandon j => stepUnit hash s j a
    | Action.wgDone j => stepUnit hash s j a
    | Action.closer => stepCloser s
    | Action.collector => stepCollector s

/-- The state a schedule leads to, when every step of it can be taken. -/
def run (hash : Bytes → Digest) : State → List Action → Option State
  | s, [] => some s
  | s, a :: rest =>
    match step hash s a with
    | some s' => run hash s' rest
    | none => none

/-- Some execution of `MD5AllParallel` on `entries` returns `out`. -/
def ParallelReturns (hash : Bytes → Digest) (entries : List Entry) (out : Outcome) : Prop :=
  ∃ sched s, run hash (init entries) sched = some s ∧ s.coll = CollPc.returned out

/-! ## Vocabulary of the proofs -/

/-- The transitions of the pipeline, one constructor per branch of `step`. -/
inductive Step (hash : Bytes → Digest) : State → State → Prop where
  | visitNil (s : State) (hp : s.panicked = false) (h : s.prod = ProdPc.visit []) :
      Step hash s { s with prod := ProdPc.walked none }
  | visitErr (s : State) (e : Entry) (rest : List Entry) (c : Nat) (hp : s.panicked = false)
      (h : s.prod = ProdPc.visit (e :: rest)) (he : e.accessErr = some c) :
      Step hash s { s with prod := ProdPc.walked (some (Err.traversal c)) }
  | visitSkip (s : State) (e : Entry) (rest : List Entry) (hp : s.panicked = false)
      (h : s.prod = ProdPc.visit (e :: rest)) (he : e.accessErr = none)
      (hr : e.isRegular = false) :
      Step hash s { s with prod := ProdPc.visit rest }
  | visitAdd (s : State) (e : Entry) (rest : List Entry) (hp : s.panicked = false)
      (h : s.prod = ProdPc.visit (e :: rest)) (he : e.accessErr = none)
      (hr : e.isRegular = true) :
      Step hash s { s with prod := ProdPc.spawn e rest, wg := s.wg + 1 }
  | spawn (s : State) (e : Entry) (rest : List Entry) (hp : s.panicked = false)
      (h : s.prod = ProdPc.spawn e rest) :
      Step hash s
        { s with prod := ProdPc.check rest, units := s.units ++ [⟨e, UnitPc.reading⟩] }
  | checkDone (s : State) (rest : List Entry) (hp : s.panicked = false)
      (h : s.prod = ProdPc.check rest) (hd : s.done = true) :
      Step hash s { s with prod := ProdPc.walked (some Err.walkCancelled) }
  | checkGo (s : State) (rest : List Entry) (hp : s.panicked = false)
      (h : s.prod = ProdPc.check rest) (hd : s.done = false) :
      Step hash s { s with prod := ProdPc.visit rest }
  | startCloser (s : State) (r : Option Err) (hp : s.panicked = false)
      (h : s.prod = ProdPc.walked r) :
      Step hash s { s with prod := ProdPc.publish r, closer := CloserPc.waiting }
  | publish (s : State) (r : Option Err) (hp : s.panicked = false)
      (h : s.prod = ProdPc.publish r) (he : s.errc = none) :
      Step hash s { s with prod := ProdPc.finished, errc := some r }
  | read (s : State) (l1 l2 : List HashUnit) (u : HashUnit) (hp : s.panicked = false)
      (hu : s.units = l1 ++ u :: l2) (hpc : u.pc = UnitPc.reading) :
      Step hash s { s with units := l1 ++ { u with pc := UnitPc.selecting } :: l2 }
  | sendPanic (s : State) (l1 l2 : List HashUnit) (u : HashUnit) (hp : s.panicked = false)
      (hu : s.units = l1 ++ u :: l2) (hpc : u.pc = UnitPc.selecting) (hc : s.cClosed = true) :
      Step hash s { s with panicked := true }
  | send (s : State) (l1 l2 : List HashUnit) (u : HashUnit) (m : DigestMap)
      (hp : s.panicked = false)
      (hu : s.units = l1 ++ u :: l2) (hpc : u.pc = UnitPc.selecting) (hc : s.cClosed = false)
      (hl : s.coll = CollPc.loop m) :
      Step hash s { s with units := l1 ++ { u with pc := UnitPc.finishing } :: l2,
                           coll := receive m (mkResult hash u.entry) }
  | abandon (s : State) (l1 l2 : List HashUnit) (u : HashUnit) (hp : s.panicked = false)
      (hu : s.units = l1 ++ u :: l2) (hpc : u.pc = UnitPc.selecting) (hd : s.done = true) :
      Step hash s { s with units := l1 ++ { u with pc := UnitPc.finishing } :: l2 }
  | donePanic (s : State) (l1 l2 : List HashUnit) (u : HashUnit) (hp : s.panicked = false)
      (hu : s.units = l1 ++ u :: l2) (hpc : u.pc = UnitPc.finishing) (hw : s.wg = 0) :
      Step hash s { s with panicked := true }
  | wgDone (s : State) (l1 l2 : List HashUnit) (u : HashUnit) (hp : s.panicked = false)
      (hu : s.units = l1 ++ u :: l2) (hpc : u.pc = UnitPc.finishing) (hw : s.wg ≠ 0) :
      Step hash s { s with units := l1 ++ { u with pc := UnitPc.terminated } :: l2,
                           wg := s.wg - 1 }
  | waitOver (s : State) (hp : s.panicked = false) (h : s.closer = CloserPc.waiting)
      (hw : s.wg = 0) :
      Step hash s { s with closer := CloserPc.closing }
  | closePanic (s : State) (hp : s.panicked = false) (h : s.closer = CloserPc.closing)
      (hc : s.cClosed = true) :
      Step hash s { s with panicked := true }
  | close (s : State) (hp : s.panicked = false) (h : s.closer = CloserPc.closing)
      (hc : s.cClosed = false) :
      Step hash s { s with closer := CloserPc.finished, cClosed := true }
  | seeClosed (s : State) (m : DigestMap) (hp : s.panicked = false)
      (h : s.coll = CollPc.loop m) (hc : s.cClosed = true) :
      Step hash s { s with coll := CollPc.drain m }
  | recvErr (s : State) (m : DigestMap) (err : Err) (hp : s.panicked = false)
      (h : s.coll = CollPc.drain m) (he : s.errc = some (some err)) :
      Step hash s { s with coll := CollPc.exiting (none, some err), errc := none }
  | recvNil (s : State) (m : DigestMap) (hp : s.panicked = false)
      (h : s.coll = CollPc.drain m) (he : s.errc = some none) :
      Step hash s { s with coll := CollPc.exiting (some m, none), errc := none }
  | exit (s : State) (out : Outcome) (hp : s.panicked = false)
      (h : s.coll = CollPc.exiting out) :
      Step hash s { s with coll := CollPc.returned out, done := true }

/-- The producer is still inside `filepath.Walk` or has not yet started the closer. -/
def ProdPc.walking : ProdPc → Bool
  | ProdPc.visit _ => true
  | ProdPc.spawn _ _ => true
  | ProdPc.check _ => true
  | ProdPc.walked _ => true
  | _ => false

/-- One when `wg.Add(1)` ran for a unit that is not started yet. -/
def ProdPc.adding : ProdPc → Nat
  | ProdPc.spawn _ _ => 1
  | _ => 0

/-- The number of hashing units that have not run `wg.Done()`. -/
def live (units : List HashUnit) : Nat :=
  units.countP (fun u => decide (u.pc ≠ UnitPc.terminated))

/-- Control invariant of the pipeline. -/
structure Ctl (s : State) : Prop where
  noPanic : s.panicked = false
  doneIff : s.done = true ↔ ∃ out, s.coll = CollPc.returned out
  wgLive : s.wg = live s.units + s.prod.adding
  closerAbsent : s.closer = CloserPc.absent ↔ s.prod.walking = true
  closedIff : s.cClosed = true ↔ s.closer = CloserPc.finished
  closingZero : s.closer = CloserPc.closing ∨ s.closer = CloserPc.finished → s.wg = 0
  errcEmpty : s.prod ≠ ProdPc.finished → s.errc = none
  errcTaken : s.prod = ProdPc.finished → s.errc = none →
    ∃ out, s.coll = CollPc.exiting out ∨ s.coll = CollPc.returned out
  drainClosed : ∀ m, s.coll = CollPc.drain m → s.cClosed = true
  mapClosed : ∀ m e,
    s.coll = CollPc.exiting (some m, e) ∨ s.coll = CollPc.returned (some m, e) →
    s.cClosed = true

/-- Every goroutine of the pipeline is over and `MD5AllParallel` has returned. -/
def Terminal (s : State) : Prop :=
  (∃ out, s.coll = CollPc.returned out) ∧ s.prod = ProdPc.finished ∧
    s.closer = CloserPc.finished ∧ ∀ u ∈ s.units, u.pc = UnitPc.terminated

/-- Steps the producer can still make, with room for the unit it may start. -/
def prodMeasure : ProdPc → Nat
  | ProdPc.visit rest => 6 * rest.length + 5
  | ProdPc.spawn _ rest => 6 * rest.length + 10
  | ProdPc.check rest => 6 * rest.length + 6
  | ProdPc.walked _ => 4
  | ProdPc.publish _ => 1
  | ProdPc.finished => 0

/-- Steps a hashing unit can still make. -/
def unitMeasure (u : HashUnit) : Nat :=
  match u.pc with
  | UnitPc.reading => 3
  | UnitPc.selecting => 2
  | UnitPc.finishing => 1
  | UnitPc.terminated => 0

/-- Steps the closer can still make. -/
def closerMeasure : CloserPc → Nat
  | CloserPc.absent => 3
  | CloserPc.waiting => 2
  | CloserPc.closing => 1
  | CloserPc.finished => 0

/-- Steps the collector can still make on its own. -/
def collMeasure : CollPc → Nat
  | CollPc.loop _ => 3
  | CollPc.drain _ => 2
  | CollPc.exiting _ => 1
  | CollPc.returned _ => 0

/-- A bound on the number of steps left in a state. -/
def measure (s : State) : Nat :=
  prodMeasure s.prod + (s.units.map unitMeasure).sum + closerMeasure s.closer +
    collMeasure s.coll + (if s.panicked then 0 else 1)

/-- The outcomes `MD5AllParallel` can return on `entries`: the read error of a unit that was
started, or the walk's own error when every started unit read its file, or the full map. -/
def Possible (hash : Bytes → Digest) (entries : List Entry) (out : Outcome) : Prop :=
  (∃ pre e post c, entries = pre ++ e :: post ∧ (∀ f ∈ pre, f.accessErr = none) ∧
      e.accessErr = none ∧ e.isRegular = true ∧ e.readErr = some c ∧
      out = (none, some (Err.read c)))
  ∨ (∃ pre e post c, entries = pre ++ e :: post ∧ (∀ f ∈ pre, f.accessErr = none) ∧
      e.accessErr = some c ∧ (∀ f ∈ pre, f.isRegular = true → f.readErr = none) ∧
      out = (none, some (Err.traversal c)))
  ∨ (∃ m, (∀ f ∈ entries, f.accessErr = none) ∧
      (∀ f ∈ entries, f.isRegular = true → f.readErr = none) ∧
      (∀ p d, (p, d) ∈ m ↔
        ∃ f ∈ entries, f.isRegular = true ∧ f.path = p ∧ hash f.data = d) ∧
      out = (some m, none))

/-- What the result `r` of `filepath.Walk` tells about the entries `post` it did not pass. -/
def WalkRes (r : Option Err) (post : List Entry) (done : Bool) : Prop :=
  match r with
  | none => post = []
  | some (Err.traversal c) => ∃ e rest, post = e :: rest ∧ e.accessErr = some c
  | some Err.walkCancelled => done = true
  | some (Err.read _) => False

/-- The producer's program counter agrees with the entries `post` the walk has not passed. -/
def ProdAt (s : State) (post : List Entry) : Prop :=
  match s.prod with
  | ProdPc.visit rest => post = rest
  | ProdPc.spawn e rest => post = e :: rest ∧ e.accessErr = none ∧ e.isRegular = true
  | ProdPc.check rest => post = rest
  | ProdPc.walked r => WalkRes r post s.done
  | ProdPc.publish r => WalkRes r post s.done
  | ProdPc.finished => ∀ r, s.errc = some r → WalkRes r post s.done

/-- The unit is past its `select`. -/
def HashUnit.past (u : HashUnit) : Prop :=
  u.pc = UnitPc.finishing ∨ u.pc = UnitPc.terminated

/-- The units started are the regular files among the entries passed, all of them accessible. -/
def Launched (entries : List Entry) (s : State) : Prop :=
  ∃ pre post, entries = pre ++ post ∧ (∀ f ∈ pre, f.accessErr = none) ∧
    s.units.map HashUnit.entry = pre.filter (fun f => f.isRegular) ∧ ProdAt s post

/-- While the collector is in its loop, its map holds the results of the units past their
`select`, and all of them read their file. -/
def Collected (hash : Bytes → Digest) (s : State) : Prop :=
  ∀ m, s.coll = CollPc.loop m ∨ s.coll = CollPc.drain m →
    (∀ u ∈ s.units, u.past →
      u.entry.readErr = none ∧ (u.entry.path, hash u.entry.data) ∈ m) ∧
    (∀ p d, (p, d) ∈ m →
      ∃ u ∈ s.units, u.past ∧ u.entry.path = p ∧ hash u.entry.data = d)

/-- Data invariant of the pipeline. -/
structure Dat (hash : Bytes → Digest) (entries : List Entry) (s : State) : Prop where
  launched : Launched entries s
  collected : Collected hash s
  outcome : ∀ out, s.coll = CollPc.exiting out ∨ s.coll = CollPc.returned out →
    Possible hash entries out

/-- Every execution of `MD5AllParallel` on `entries` returns, and what it returns satisfies `P`:
no schedule is longer than `measure (init entries)`, every schedule can be continued until the
call has returned, and every outcome some execution returns satisfies `P`. -/
def ParallelAlways (hash : Bytes → Digest) (entries : List Entry) (P : Outcome → Prop) : Prop :=
  (∀ sched s, run hash (init entries) sched = some s →
      sched.length ≤ measure (init entries) ∧
      ∃ rest t out, run hash s rest = some t ∧ t.coll = CollPc.returned out) ∧
  (∀ out, ParallelReturns hash entries out → P out)

/-- Two returned maps are both `nil`, or both maps with the same value at every key. -/
def SameMap (a b : Option DigestMap) : Prop :=
  match a, b with
  | none, none => True
  | some x, some y => ∀ p, x.get p = y.get p
  | _, _ => False

/-- The value the callback of `MD5AllSerial` returns on an entry. -/
def Entry.callbackErr (e : Entry) : Option Err :=
  match e.accessErr with
  | some c => some (Err.traversal c)
  | none => if !e.isRegular then none else e.readErr.map Err.read

/-- The map the serial walk builds from entries it passes without error. -/
def serialMap (hash : Bytes → Digest) (pre : List Entry) : DigestMap :=
  ((pre.filter (fun f => f.isRegular)).map (fun f => (f.path, hash f.data))).reverse

/-- The reads and hashes the serial walk makes on entries it passes without error. -/
def serialEvents (pre : List Entry) : List SerialEvent :=
  (pre.filter (fun f => f.isRegular)).flatMap
    (fun f => [SerialEvent.readFile f.path, SerialEvent.md5Sum f.path])

/-- The value `filepath.Walk` returns in `sumFiles` when the callback never finds `done`
closed: the first access error among the entries, or `nil`. -/
def walkResult : List Entry → Option Err
  | [] => none
  | e :: rest =>
    match e.accessErr with
    | some c => some (Err.traversal c)
    | none => walkResult rest

/-- Invariant on what the collector returns and on the value it takes from `errc`. -/
structure Ret (entries : List Entry) (s : State) : Prop where
  settled : ∀ out, s.coll = CollPc.exiting out ∨ s.coll = CollPc.returned out →
    s.cClosed = true ∨ ∃ c, out = (none, some (Err.read c))
  taken : s.prod = ProdPc.finished → s.errc = none →
    ∃ out, (s.coll = CollPc.exiting out ∨ s.coll = CollPc.returned out) ∧
      out.2 = walkResult entries

/-- A stand-in for `md5.Sum` in the examples. -/
def exHash : Bytes → Digest := fun b => b.sum

/-- A readable regular file. -/
def fileA : Entry := ⟨"a.txt", none, true, [104, 105], none⟩

/-- A second readable regular file. -/
def fileB : Entry := ⟨"b/b.txt", none, true, [119], none⟩

/-- A directory. -/
def dirB : Entry := ⟨"b", none, false, [], none⟩

/-- A regular file that cannot be read. -/
def badFile : Entry := ⟨"c.txt", none, true, [], some 13⟩

/-- A directory that cannot be accessed. -/
def badDir : Entry := ⟨"d", some 2, false, [], none⟩

/-- The state after both units of `[fileA, badFile]` sent their result and the call returned. -/
def exFailed : State :=
  { coll := CollPc.returned (none, some (Err.read 13)), prod := ProdPc.visit [],
    units := [⟨fileA, UnitPc.finishing⟩, ⟨badFile, UnitPc.finishing⟩],
    closer := CloserPc.absent, wg := 2, cClosed := false, errc := none, done := true,
    panicked := false }

/-- The state after the call on `[dirB, badFile, fileA]` returned the read error of `badFile`
while the unit of `fileA` is still reading. -/
def exLeft : State :=
  { coll := CollPc.returned (none, some (Err.read 13)), prod := ProdPc.visit [],
    units := [⟨badFile, UnitPc.finishing⟩, ⟨fileA, UnitPc.reading⟩],
    closer := CloserPc.absent, wg := 2, cClosed := false, errc := none, done := true,
    panicked := false }

/-- The state after the call on `[dirB, fileA, badDir]` returned the traversal error. -/
def exWalkFailed : State :=
  { coll := CollPc.returned (none, some (Err.traversal 2)), prod := ProdPc.finished,
    units := [⟨fileA, UnitPc.terminated⟩], closer := CloserPc.finished, wg := 0,
    cClosed := true, errc := none, done := true, panicked := false }

/-- A schedule of `[dirB, badFile, fileA]`: both units are started, the failing result is
received, the call returns. -/
def schedLeft : List Action :=
  [Action.producer, Action.producer, Action.producer, Action.producer, Action.producer,
    Action.producer, Action.producer, Action.read 0, Action.send 0, Action.collector]

/-- A schedule of `[dirB, fileA, badDir]`: the walk fails on `badDir`, the unit of `fileA`
runs to its end, the closer closes `c`, the collector reads `errc` and returns. -/
def schedWalkFailed : List Action :=
  [Action.producer, Action.producer, Action.producer, Action.producer, Action.producer,
    Action.producer, Action.producer, Action.read 0, Action.send 0, Action.wgDone 0,
    Action.closer, Action.closer, Action.collector, Action.collector, Action.collector]

/-- The state of `[dirB]` in which `c` is closed, the collector is at `<-errc` and `errc` is
still empty. -/
def exDrain : State :=
  { coll := CollPc.drain [], prod := ProdPc.publish none, units := [],
    closer := CloserPc.finished, wg := 0, cClosed := true, errc := none, done := false,
    panicked := false }

/-- The state of `[dirB, fileA, fileB]` after both units sent their result and ended and the
closer closed `c`. -/
def exClosed : State :=
  { coll := CollPc.loop [("a.txt", 209), ("b/b.txt", 119)], prod := ProdPc.publish none,
    units := [⟨fileA, UnitPc.terminated⟩, ⟨fileB, UnitPc.terminated⟩],
    closer := CloserPc.finished, wg := 0, cClosed := true, errc := none, done := false,
    panicked := false }

/-- A schedule of `[dirB]` up to the collector's `<-errc`, the producer not yet at its send. -/
def schedDrain : List Action :=
  [Action.producer, Action.producer, Action.producer, Action.closer, Action.closer,
    Action.collector]

/-- A schedule of `[dirB, fileA, fileB]`: both units are started, send in the reverse order
and end, then the closer closes `c`. -/
def schedClosed : List Action :=
  [Action.producer, Action.producer, Action.producer, Action.producer, Action.producer,
    Action.producer, Action.producer, Action.producer, Action.producer, Action.read 1,
    Action.read 0, Action.send 1, Action.send 0, Action.wgDone 0, Action.wgDone 1,
    Action.closer, Action.closer]

/-! ## Theorems -/

theorem get?_split {α : Type} (l : List α) (j : Nat) (u : α) (h : l.get? j = some u) :
    ∃ l1 l2, l = l1 ++ u :: l2 ∧ l1.length = j ∧ ∀ v, l.set j v = l1 ++ v :: l2 := by
  induction l generalizing j with
  | nil => simp at h
  | cons a l ih =>
    cases j with
    | zero =>
      simp at h
      subst h
      exact ⟨[], l, by simp⟩
    | succ j =>
      simp at h
      obtain ⟨l1, l2, h1, h2, h3⟩ := ih j (by simpa using h)
      refine ⟨a :: l1, l2, by simp [h1], by simp [h2], ?_⟩
      intro v
      simp [h3]

theorem stepProducer_sound (hash : Bytes → Digest) (s s' : State) (hp : s.panicked = false)
    (h : stepProducer s = some s') : Step hash s s' := by
  unfold stepProducer at h
  split at h
  · cases h; exact Step.visitNil s hp (by assumption)
  · split at h
    · cases h; exact Step.visitErr s _ _ _ hp (by assumption) (by assumption)
    · split at h
      · cases h; exact Step.visitSkip s _ _ hp (by assumption) (by assumption) (by simp_all)
      · cases h; exact Step.visitAdd s _ _ hp (by assumption) (by assumption) (by simp_all)
  · cases h; exact Step.spawn s _ _ hp (by assumption)
  · split at h
    · cases h; exact Step.checkDone s _ hp (by assumption) (by assumption)
    · cases h; exact Step.checkGo s _ hp (by assumption) (by simp_all)
  · cases h; exact Step.startCloser s _ hp (by assumption)
  · split at h
    · cases h; exact Step.publish s _ hp (by assumption) (by assumption)
    · cases h
  · cases h

theorem stepUnit_sound (hash : Bytes → Digest) (s s' : State) (j : Nat) (a : Action)
    (hp : s.panicked = false) (h : stepUnit hash s j a = some s') : Step hash s s' := by
  unfold stepUnit at h
  split at h
  · cases h
  · rename_i u hu
    obtain ⟨l1, l2, h1, -, h3⟩ := get?_split _ _ _ hu
    split at h
    · cases h; rw [h3]; exact Step.read s l1 l2 u hp h1 (by assumption)
    · split at h
      · cases h; exact Step.sendPanic s l1 l2 u hp h1 (by assumption) (by assumption)
      · split at h
        · cases h; rw [h3]
          exact Step.send s l1 l2 u _ hp h1 (by assumption) (by simp_all) (by assumption)
        · cases h
    · split at h
      · cases h; rw [h3]; exact Step.abandon s l1 l2 u hp h1 (by assumption) (by assumption)
      · cases h
    · split at h
      · cases h; exact Step.donePanic s l1 l2 u hp h1 (by assumption) (by assumption)
      · cases h; rw [h3]; exact Step.wgDone s l1 l2 u hp h1 (by assumption) (by assumption)
    · cases h

theorem stepCloser_sound (hash : Bytes → Digest) (s s' : State) (hp : s.panicked = false)
    (h : stepCloser s = some s') : Step hash s s' := by
  unfold stepCloser at h
  split at h
  · split at h
    · cases h; exact Step.waitOver s hp (by assumption) (by assumption)
    · cases h
  · split at h
    · cases h; exact Step.closePanic s hp (by assumption) (by assumption)
    · cases h; exact Step.close s hp (by assumption) (by simp_all)
  · cases h

theorem stepCollector_sound (hash : Bytes → Digest) (s s' : State) (hp : s.panicked = false)
    (h : stepCollector s = some s') : Step hash s s' := by
  unfold stepCollector at h
  split at h
  · split at h
    · cases h; exact Step.seeClosed s _ hp (by assumption) (by assumption)
    · cases h
  · split at h
    · cases h
    · cases h; exact Step.recvErr s _ _ hp (by assumption) (by assumption)
    · cases h; exact Step.recvNil s _ hp (by assumption) (by assumption)
  · cases h; exact Step.exit s _ hp (by assumption)
  · cases h

theorem step_sound (hash : Bytes → Digest) (s s' : State) (a : Action)
    (h : step hash s a = some s') : Step hash s s' := by
  unfold step at h
  split at h
  · cases h
  · have hp : s.panicked = false := by simp_all
    cases a with
    | producer => exact stepProducer_sound hash s s' hp h
    | read j => exact stepUnit_sound hash s s' j _ hp h
    | send j => exact stepUnit_sound hash s s' j _ hp h
    | abandon j => exact stepUnit_sound hash s s' j _ hp h
    | wgDone j => exact stepUnit_sound hash s s' j _ hp h
    | closer => exact stepCloser_sound hash s s' hp h
    | collector => exact stepCollector_sound hash s s' hp h

theorem Ctl_init (entries : List Entry) : Ctl (init entries) := by
  constructor <;> simp [init, live, ProdPc.adding, ProdPc.walking]

theorem live_split (l1 l2 : List HashUnit) (u : HashUnit) :
    live (l1 ++ u :: l2) = live l1 + live l2 + (if u.pc = UnitPc.terminated then 0 else 1) := by
  unfold live
  rw [List.countP_append, List.countP_cons]
  by_cases h : u.pc = UnitPc.terminated
  · simp [h]
  · simp [h]; omega

theorem live_snoc (l : List HashUnit) (e : Entry) :
    live (l ++ [⟨e, UnitPc.reading⟩]) = live l + 1 := by
  unfold live
  simp [List.countP_append]

set_option maxHeartbeats 4000000 in
theorem Ctl_step (hash : Bytes → Digest) (s s' : State) (hc : Ctl s) (h : Step hash s s') :
    Ctl s' := by
  obtain ⟨c1, c2, c3, c4, c5, c6, c7, c8, c9, c10⟩ := hc
  obtain ⟨coll, prod, units, closer, wg, cc, errc, done, pan⟩ := s
  cases h
  case donePanic l1 l2 u hp hu hpc hw =>
    simp only at *
    subst hu hw
    rw [live_split] at c3
    simp [hpc] at c3
    omega
  all_goals
    simp only at *
    subst_vars
    constructor <;>
    simp_all [live_split, live_snoc, ProdPc.adding, ProdPc.walking, receive, live] <;>
    (try split) <;> (try simp_all) <;> (try omega) <;> (try assumption)

theorem run_append (hash : Bytes → Digest) (s : State) (a b : List Action) :
    run hash s (a ++ b) = (run hash s a).bind (fun t => run hash t b) := by
  induction a generalizing s with
  | nil => simp [run]
  | cons x a ih =>
    simp only [List.cons_append, run]
    cases step hash s x with
    | none => simp
    | some t => simpa using ih t

theorem Ctl_run (hash : Bytes → Digest) (sched : List Action) (s s' : State) (hc : Ctl s)
    (h : run hash s sched = some s') : Ctl s' := by
  induction sched generalizing s with
  | nil => simp [run] at h; subst h; exact hc
  | cons a rest ih =>
    simp only [run] at h
    cases hs : step hash s a with
    | none => simp [hs] at h
    | some t =>
      simp only [hs] at h
      exact ih t (Ctl_step hash s t hc (step_sound hash s t a hs)) h

theorem live_eq_zero (l : List HashUnit) (h : live l = 0) :
    ∀ u ∈ l, u.pc = UnitPc.terminated := by
  unfold live at h
  rw [List.countP_eq_zero] at h
  intro u hu
  simpa using h u hu

theorem live_zero_of_all (l : List HashUnit) (h : ∀ u ∈ l, u.pc = UnitPc.terminated) :
    live l = 0 := by
  unfold live
  rw [List.countP_eq_zero]
  intro u hu
  simp [h u hu]

/-- No deadlock: a state of the invariant in which no goroutine can move is terminal. -/
theorem progress (hash : Bytes → Digest) (s : State) (hc : Ctl s)
    (hstuck : ∀ a, step hash s a = none) : Terminal s := by
  have hp := hc.noPanic
  have hprod : s.prod = ProdPc.finished := by
    have h1 := hstuck Action.producer
    simp only [step, hp, Bool.false_eq_true, if_false, stepProducer] at h1
    have h7 := hc.errcEmpty
    split at h1 <;> (try split at h1) <;> (try split at h1) <;> simp_all
  have hunits : ∀ u ∈ s.units, u.pc = UnitPc.terminated := by
    intro u hu
    obtain ⟨j, hj⟩ := List.get?_of_mem hu
    have hr := hstuck (Action.read j)
    have hs := hstuck (Action.send j)
    have ha := hstuck (Action.abandon j)
    have hd := hstuck (Action.wgDone j)
    have hk := hstuck Action.collector
    simp only [step, hp, Bool.false_eq_true, if_false, stepUnit, hj] at hr hs ha hd
    simp only [step, hp, Bool.false_eq_true, if_false, stepCollector] at hk
    cases hpc : u.pc with
    | reading => simp [hpc] at hr
    | selecting =>
      simp only [hpc] at hs ha
      have h9 := hc.drainClosed
      cases hcc : s.cClosed with
      | true => simp [hcc] at hs
      | false =>
        simp only [hcc, Bool.false_eq_true, if_false] at hs
        cases hcoll : s.coll with
        | loop m => simp [hcoll] at hs
        | drain m => have := h9 m hcoll; simp [hcc] at this
        | exiting out => simp [hcoll] at hk
        | returned out =>
          have hdn : s.done = true := hc.doneIff.mpr ⟨out, hcoll⟩
          simp [hdn] at ha
    | finishing =>
      simp only [hpc] at hd
      split at hd <;> simp at hd
    | terminated => rfl
  have hwg : s.wg = 0 := by
    rw [hc.wgLive, live_zero_of_all _ hunits, hprod]; rfl
  have hcl : s.closer = CloserPc.finished := by
    have h1 := hstuck Action.closer
    simp only [step, hp, Bool.false_eq_true, if_false, stepCloser] at h1
    have h4 := hc.closerAbsent
    cases hcl : s.closer with
    | absent => simp [hcl, hprod, ProdPc.walking] at h4
    | waiting => simp [hcl, hwg] at h1
    | closing => simp only [hcl] at h1; split at h1 <;> simp at h1
    | finished => rfl
  refine ⟨?_, hprod, hcl, hunits⟩
  have hk := hstuck Action.collector
  simp only [step, hp, Bool.false_eq_true, if_false, stepCollector] at hk
  have hcc : s.cClosed = true := hc.closedIff.mpr hcl
  cases hcoll : s.coll with
  | loop m => simp [hcoll, hcc] at hk
  | drain m =>
    simp only [hcoll] at hk
    cases he : s.errc with
    | none =>
      obtain ⟨out, h | h⟩ := hc.errcTaken hprod he <;> simp [hcoll] at h
    | some r => cases r <;> simp [he] at hk
  | exiting out => simp [hcoll] at hk
  | returned out => exact ⟨out, rfl⟩

theorem collMeasure_receive (m : DigestMap) (r : result) : collMeasure (receive m r) ≤ 3 := by
  unfold receive
  split <;> simp [collMeasure]

set_option maxHeartbeats 4000000 in
theorem Step_measure (hash : Bytes → Digest) (s s' : State) (h : Step hash s s') :
    measure s' < measure s := by
  obtain ⟨coll, prod, units, closer, wg, cc, errc, done, pan⟩ := s
  cases h
  case send l1 l2 u m hp hu hpc hc hl =>
    simp only at *
    subst_vars
    have := collMeasure_receive m (mkResult hash u.entry)
    have h3 : collMeasure (CollPc.loop m) = 3 := rfl
    simp only [measure, List.map_append, List.map_cons, List.sum_append, List.sum_cons,
      unitMeasure, hpc, h3]
    omega
  all_goals
    simp only at *
    subst_vars
    simp only [measure, prodMeasure, closerMeasure, collMeasure, List.map_append, List.map_cons,
      List.sum_append, List.sum_cons, List.length_cons, List.map_nil, List.sum_nil, unitMeasure]
    (try cases closer) <;> (try split) <;> simp_all [closerMeasure, collMeasure] <;> omega

theorem step_measure (hash : Bytes → Digest) (s s' : State) (a : Action)
    (h : step hash s a = some s') : measure s' < measure s :=
  Step_measure hash s s' (step_sound hash s s' a h)

/-- Every schedule is shorter than the measure of the state it starts from. -/
theorem run_length (hash : Bytes → Digest) (sched : List Action) (s s' : State)
    (h : run hash s sched = some s') : sched.length + measure s' ≤ measure s := by
  induction sched generalizing s with
  | nil => simp [run] at h; subst h; simp
  | cons a rest ih =>
    simp only [run] at h
    cases hs : step hash s a with
    | none => simp [hs] at h
    | some t =>
      simp only [hs] at h
      have h1 := ih t h
      have h2 := step_measure hash s t a hs
      simp only [List.length_cons]
      omega

/-- From every state of the invariant the pipeline can run to a terminal state. -/
theorem completion (hash : Bytes → Digest) (n : Nat) :
    ∀ s : State, measure s ≤ n → Ctl s →
      ∃ sched t, run hash s sched = some t ∧ Terminal t := by
  induction n with
  | zero =>
    intro s hm hc
    refine ⟨[], s, rfl, progress hash s hc ?_⟩
    intro a
    cases hs : step hash s a with
    | none => rfl
    | some t => have := step_measure hash s t a hs; omega
  | succ n ih =>
    intro s hm hc
    by_cases hstuck : ∀ a, step hash s a = none
    · exact ⟨[], s, rfl, progress hash s hc hstuck⟩
    · push_neg at hstuck
      obtain ⟨a, ha⟩ := hstuck
      cases hs : step hash s a with
      | none => exact absurd hs ha
      | some t =>
        have h2 := step_measure hash s t a hs
        obtain ⟨sched, t', hr, ht⟩ :=
          ih t (by omega) (Ctl_step hash s t hc (step_sound hash s t a hs))
        exact ⟨a :: sched, t', by simp [run, hs, hr], ht⟩

theorem Dat_init (hash : Bytes → Digest) (entries : List Entry) :
    Dat hash entries (init entries) := by
  refine ⟨⟨[], entries, by simp, by simp, by simp [init], by simp [ProdAt, init]⟩, ?_, ?_⟩
  · intro m hm
    simp [init] at hm
    subst hm
    simp [init]
  · intro out h
    simp [init] at h

theorem WalkRes_mono (r : Option Err) (post : List Entry) (d : Bool) (h : WalkRes r post d) :
    WalkRes r post true := by
  unfold WalkRes at *
  split <;> simp_all

theorem Launched_step (hash : Bytes → Digest) (entries : List Entry) (s s' : State)
    (hl : Launched entries s) (h : Step hash s s') : Launched entries s' := by
  obtain ⟨pre, post, h1, h2, h3, h4⟩ := hl
  cases h
  case visitNil hp h =>
    exact ⟨pre, post, h1, h2, h3, by simp_all [ProdAt, WalkRes]⟩
  case visitErr e rest c hp h he =>
    exact ⟨pre, post, h1, h2, h3, by simp_all [ProdAt, WalkRes]⟩
  case visitSkip e rest hp h he hr =>
    simp only [ProdAt, h] at h4
    subst h4
    refine ⟨pre ++ [e], rest, by simp [h1], ?_, ?_, by simp [ProdAt]⟩
    · intro f hf
      simp at hf
      rcases hf with hf | hf
      · exact h2 f hf
      · subst hf; exact he
    · simp [List.filter_append, hr, h3]
  case visitAdd e rest hp h he hr =>
    exact ⟨pre, post, h1, h2, h3, by simp_all [ProdAt]⟩
  case spawn e rest hp h =>
    simp only [ProdAt, h] at h4
    obtain ⟨h4, he, hr⟩ := h4
    subst h4
    refine ⟨pre ++ [e], rest, by simp [h1], ?_, ?_, by simp [ProdAt]⟩
    · intro f hf
      simp at hf
      rcases hf with hf | hf
      · exact h2 f hf
      · subst hf; exact he
    · simp [List.filter_append, hr, h3]
  case checkDone rest hp h hd =>
    exact ⟨pre, post, h1, h2, h3, by simp_all [ProdAt, WalkRes]⟩
  case checkGo rest hp h hd =>
    exact ⟨pre, post, h1, h2, h3, by simp_all [ProdAt]⟩
  case startCloser r hp h =>
    exact ⟨pre, post, h1, h2, h3, by simp_all [ProdAt]⟩
  case publish r hp h he =>
    exact ⟨pre, post, h1, h2, h3, by simp_all [ProdAt]⟩
  case read l1 l2 u hp hu hpc =>
    exact ⟨pre, post, h1, h2, by simpa [hu] using h3, by simpa [ProdAt] using h4⟩
  case sendPanic l1 l2 u hp hu hpc hc =>
    exact ⟨pre, post, h1, h2, h3, by simpa [ProdAt] using h4⟩
  case send l1 l2 u m hp hu hpc hc hl =>
    exact ⟨pre, post, h1, h2, by simpa [hu] using h3, by simpa [ProdAt] using h4⟩
  case abandon l1 l2 u hp hu hpc hd =>
    exact ⟨pre, post, h1, h2, by simpa [hu] using h3, by simpa [ProdAt] using h4⟩
  case donePanic l1 l2 u hp hu hpc hw =>
    exact ⟨pre, post, h1, h2, h3, by simpa [ProdAt] using h4⟩
  case wgDone l1 l2 u hp hu hpc hw =>
    exact ⟨pre, post, h1, h2, by simpa [hu] using h3, by simpa [ProdAt] using h4⟩
  case waitOver hp h hw =>
    exact ⟨pre, post, h1, h2, h3, by simpa [ProdAt] using h4⟩
  case closePanic hp h hc =>
    exact ⟨pre, post, h1, h2, h3, by simpa [ProdAt] using h4⟩
  case close hp h hc =>
    exact ⟨pre, post, h1, h2, h3, by simpa [ProdAt] using h4⟩
  case seeClosed m hp h hc =>
    exact ⟨pre, post, h1, h2, h3, by simpa [ProdAt] using h4⟩
  case recvErr m err hp h he =>
    refine ⟨pre, post, h1, h2, h3, ?_⟩
    simp only [ProdAt] at h4 ⊢
    split <;> simp_all
  case recvNil m hp h he =>
    refine ⟨pre, post, h1, h2, h3, ?_⟩
    simp only [ProdAt] at h4 ⊢
    split <;> simp_all
  case exit out hp h =>
    refine ⟨pre, post, h1, h2, h3, ?_⟩
    simp only [ProdAt] at h4 ⊢
    split <;> simp_all
    all_goals first
      | exact WalkRes_mono _ _ _ h4
      | (intro r hr; exact WalkRes_mono _ _ _ (h4 r hr))

theorem Collected_step (hash : Bytes → Digest) (s s' : State) (hc : Ctl s)
    (hd : Collected hash s) (h : Step hash s s') : Collected hash s' := by
  cases h
  case visitNil hp h => exact hd
  case visitErr e rest c hp h he => exact hd
  case visitSkip e rest hp h he hr => exact hd
  case visitAdd e rest hp h he hr => exact hd
  case spawn e rest hp h =>
    intro m hm
    obtain ⟨a, b⟩ := hd m hm
    refine ⟨?_, ?_⟩
    · intro u hu hpast
      simp only [List.mem_append, List.mem_singleton] at hu
      rcases hu with hu | hu
      · exact a u hu hpast
      · subst hu; simp [HashUnit.past] at hpast
    · intro p d hpd
      obtain ⟨u, hu, h⟩ := b p d hpd
      exact ⟨u, by simp [hu], h⟩
  case checkDone rest hp h hdn => exact hd
  case checkGo rest hp h hdn => exact hd
  case startCloser r hp h => exact hd
  case publish r hp h he => exact hd
  case read l1 l2 u hp hu hpc =>
    intro m hm
    obtain ⟨a, b⟩ := hd m hm
    rw [hu] at a b
    refine ⟨?_, ?_⟩
    · intro v hv hpast
      simp only [List.mem_append, List.mem_cons] at hv
      rcases hv with hv | hv | hv
      · exact a v (by simp [hv]) hpast
      · subst hv; simp [HashUnit.past] at hpast
      · exact a v (by simp [hv]) hpast
    · intro p d hpd
      obtain ⟨v, hv, h, h'⟩ := b p d hpd
      simp only [List.mem_append, List.mem_cons] at hv
      rcases hv with hv | hv | hv
      · exact ⟨v, by simp [hv], h, h'⟩
      · subst hv; simp [HashUnit.past, hpc] at h
      · exact ⟨v, by simp [hv], h, h'⟩
  case sendPanic l1 l2 u hp hu hpc hc => exact hd
  case send l1 l2 u m0 hp hu hpc hcc hl =>
    intro m hm
    obtain ⟨a, b⟩ := hd m0 (Or.inl hl)
    rw [hu] at a b
    cases hre : u.entry.readErr with
    | some c => simp [receive, mkResult, hre] at hm
    | none =>
      simp only [receive, mkResult, hre, Option.map_none', DigestMap.set] at hm
      simp only [CollPc.loop.injEq, reduceCtorEq, or_false] at hm
      subst hm
      refine ⟨?_, ?_⟩
      · intro v hv hpast
        simp only [List.mem_append, List.mem_cons] at hv
        rcases hv with hv | hv | hv
        · obtain ⟨x, y⟩ := a v (by simp [hv]) hpast
          exact ⟨x, by simp [y]⟩
        · subst hv; simp [hre]
        · obtain ⟨x, y⟩ := a v (by simp [hv]) hpast
          exact ⟨x, by simp [y]⟩
      · intro p d hpd
        simp only [List.mem_cons, Prod.mk.injEq] at hpd
        rcases hpd with ⟨hp1, hp2⟩ | hpd
        · exact ⟨{ u with pc := UnitPc.finishing }, by simp, by simp [HashUnit.past],
            hp1.symm, hp2.symm⟩
        · obtain ⟨v, hv, h, h'⟩ := b p d hpd
          simp only [List.mem_append, List.mem_cons] at hv
          rcases hv with hv | hv | hv
          · exact ⟨v, by simp [hv], h, h'⟩
          · subst hv; simp [HashUnit.past, hpc] at h
          · exact ⟨v, by simp [hv], h, h'⟩
  case abandon l1 l2 u hp hu hpc hdn =>
    intro m hm
    obtain ⟨out, ho⟩ := hc.doneIff.mp hdn
    simp [ho] at hm
  case donePanic l1 l2 u hp hu hpc hw => exact hd
  case wgDone l1 l2 u hp hu hpc hw =>
    intro m hm
    obtain ⟨a, b⟩ := hd m hm
    rw [hu] at a b
    have hup : u.past := Or.inl hpc
    refine ⟨?_, ?_⟩
    · intro v hv hpast
      simp only [List.mem_append, List.mem_cons] at hv
      rcases hv with hv | hv | hv
      · exact a v (by simp [hv]) hpast
      · subst hv; exact a u (by simp) hup
      · exact a v (by simp [hv]) hpast
    · intro p d hpd
      obtain ⟨v, hv, h, h'⟩ := b p d hpd
      simp only [List.mem_append, List.mem_cons] at hv
      rcases hv with hv | hv | hv
      · exact ⟨v, by simp [hv], h, h'⟩
      · subst hv; exact ⟨{ v with pc := UnitPc.terminated }, by simp, by simp [HashUnit.past], h'⟩
      · exact ⟨v, by simp [hv], h, h'⟩
  case waitOver hp h hw => exact hd
  case closePanic hp h hc => exact hd
  case close hp h hc => exact hd
  case seeClosed m0 hp h hcc =>
    intro m hm
    simp only [CollPc.drain.injEq, reduceCtorEq, false_or] at hm
    subst hm
    exact hd m0 (Or.inl h)
  case recvErr m0 err hp h he =>
    intro m hm
    simp at hm
  case recvNil m0 hp h he =>
    intro m hm
    simp at hm
  case exit out hp h =>
    intro m hm
    simp at hm

/-- When `c` is closed every unit is over. -/
theorem Ctl.closed_terminated {s : State} (hc : Ctl s) (h : s.cClosed = true) :
    ∀ u ∈ s.units, u.pc = UnitPc.terminated := by
  have h1 := hc.closingZero (Or.inr (hc.closedIff.mp h))
  have h2 := hc.wgLive
  exact live_eq_zero _ (by omega)

theorem Outcome_step (hash : Bytes → Digest) (entries : List Entry) (s s' : State) (hc : Ctl s)
    (hd : Dat hash entries s) (h : Step hash s s') :
    ∀ out, s'.coll = CollPc.exiting out ∨ s'.coll = CollPc.returned out →
      Possible hash entries out := by
  have ho := hd.outcome
  cases h
  case send l1 l2 u m0 hp hu hpc hcc hl =>
    intro out hout
    cases hre : u.entry.readErr with
    | none => simp [receive, mkResult, hre] at hout
    | some c =>
      simp only [receive, mkResult, hre, Option.map_some', CollPc.exiting.injEq, reduceCtorEq,
        or_false] at hout
      subst hout
      obtain ⟨pre, post, h1, h2, h3, -⟩ := hd.launched
      have hmem : u.entry ∈ pre.filter (fun f => f.isRegular) := by
        rw [← h3, hu]; simp
      rw [List.mem_filter] at hmem
      obtain ⟨a, b, hab⟩ := List.append_of_mem hmem.1
      refine Or.inl ⟨a, u.entry, b ++ post, c, by simp [h1, hab], ?_, ?_, hmem.2, hre, rfl⟩
      · intro f hf; exact h2 f (by simp [hab, hf])
      · exact h2 _ hmem.1
  case recvErr m0 err hp h he =>
    intro out hout
    simp only [CollPc.exiting.injEq, reduceCtorEq, or_false] at hout
    subst hout
    have hfin : s.prod = ProdPc.finished := by
      by_contra hne
      have := hc.errcEmpty hne
      simp [he] at this
    obtain ⟨pre, post, h1, h2, h3, h4⟩ := hd.launched
    simp only [ProdAt, hfin] at h4
    have hw := h4 _ he
    have hterm := hc.closed_terminated (hc.drainClosed m0 h)
    have hread : ∀ f ∈ pre, f.isRegular = true → f.readErr = none := by
      intro f hf hr
      have : f ∈ s.units.map HashUnit.entry := by rw [h3]; simp [hf, hr]
      obtain ⟨u, hu, hue⟩ := List.mem_map.mp this
      subst hue
      exact ((hd.collected m0 (Or.inr h)).1 u hu (Or.inr (hterm u hu))).1
    cases err with
    | traversal c =>
      obtain ⟨e, rest, hpost, hec⟩ := hw
      exact Or.inr (Or.inl ⟨pre, e, rest, c, by rw [h1, hpost], h2, hec, hread, rfl⟩)
    | read c => exact absurd hw (by simp [WalkRes])
    | walkCancelled =>
      simp only [WalkRes] at hw
      obtain ⟨o, ho'⟩ := hc.doneIff.mp hw
      simp [h] at ho'
  case recvNil m0 hp h he =>
    intro out hout
    simp only [CollPc.exiting.injEq, reduceCtorEq, or_false] at hout
    subst hout
    have hfin : s.prod = ProdPc.finished := by
      by_contra hne
      have := hc.errcEmpty hne
      simp [he] at this
    obtain ⟨pre, post, h1, h2, h3, h4⟩ := hd.launched
    simp only [ProdAt, hfin] at h4
    have hw := h4 _ he
    simp only [WalkRes] at hw
    subst hw
    simp only [List.append_nil] at h1
    subst h1
    have hterm := hc.closed_terminated (hc.drainClosed m0 h)
    obtain ⟨ca, cb⟩ := hd.collected m0 (Or.inr h)
    refine Or.inr (Or.inr ⟨m0, h2, ?_, ?_, rfl⟩)
    · intro f hf hr
      have : f ∈ s.units.map HashUnit.entry := by rw [h3]; simp [hf, hr]
      obtain ⟨u, hu, hue⟩ := List.mem_map.mp this
      subst hue
      exact (ca u hu (Or.inr (hterm u hu))).1
    · intro p d
      constructor
      · intro hpd
        obtain ⟨u, hu, -, hp1, hp2⟩ := cb p d hpd
        have : u.entry ∈ s.units.map HashUnit.entry := List.mem_map.mpr ⟨u, hu, rfl⟩
        rw [h3, List.mem_filter] at this
        exact ⟨u.entry, this.1, this.2, hp1, hp2⟩
      · rintro ⟨f, hf, hr, hp1, hp2⟩
        have : f ∈ s.units.map HashUnit.entry := by rw [h3]; simp [hf, hr]
        obtain ⟨u, hu, hue⟩ := List.mem_map.mp this
        subst hue
        have := (ca u hu (Or.inr (hterm u hu))).2
        rw [hp1, hp2] at this
        exact this
  case exit out0 hp h =>
    intro out hout
    simp only [CollPc.returned.injEq, reduceCtorEq, false_or] at hout
    subst hout
    exact ho _ (Or.inl h)
  case seeClosed m0 hp h hcc =>
    intro out hout
    simp at hout
  all_goals exact ho

theorem Dat_step (hash : Bytes → Digest) (entries : List Entry) (s s' : State) (hc : Ctl s)
    (hd : Dat hash entries s) (h : Step hash s s') : Dat hash entries s' :=
  ⟨Launched_step hash entries s s' hd.launched h, Collected_step hash s s' hc hd.collected h,
    Outcome_step hash entries s s' hc hd h⟩

/-- Both invariants hold in every state a schedule reaches. -/
theorem Inv_run (hash : Bytes → Digest) (entries : List Entry) (sched : List Action)
    (s s' : State) (hc : Ctl s) (hd : Dat hash entries s) (h : run hash s sched = some s') :
    Ctl s' ∧ Dat hash entries s' := by
  induction sched generalizing s with
  | nil => simp [run] at h; subst h; exact ⟨hc, hd⟩
  | cons a rest ih =>
    simp only [run] at h
    cases hs : step hash s a with
    | none => simp [hs] at h
    | some t =>
      simp only [hs] at h
      have hst := step_sound hash s t a hs
      exact ih t (Ctl_step hash s t hc hst) (Dat_step hash entries s t hc hd hst) h

theorem Inv_reach (hash : Bytes → Digest) (entries : List Entry) (sched : List Action)
    (s : State) (h : run hash (init entries) sched = some s) : Ctl s ∧ Dat hash entries s :=
  Inv_run hash entries sched (init entries) s (Ctl_init entries) (Dat_init hash entries) h

theorem returns_possible (hash : Bytes → Digest) (entries : List Entry) (out : Outcome)
    (h : ParallelReturns hash entries out) : Possible hash entries out := by
  obtain ⟨sched, s, hrun, hret⟩ := h
  exact (Inv_reach hash entries sched s hrun).2.outcome out (Or.inr hret)

theorem parallelAlways_of (hash : Bytes → Digest) (entries : List Entry) (P : Outcome → Prop)
    (h : ∀ out, Possible hash entries out → P out) : ParallelAlways hash entries P := by
  refine ⟨?_, fun out ho => h out (returns_possible hash entries out ho)⟩
  intro sched s hrun
  have hlen := run_length hash sched (init entries) s hrun
  refine ⟨by omega, ?_⟩
  obtain ⟨rest, t, hr, ⟨out, ho⟩, -⟩ :=
    completion hash (measure s) s (le_refl _) (Inv_reach hash entries sched s hrun).1
  exact ⟨rest, t, out, hr, ho⟩

/-- Once a `return` statement has run, the outcome is fixed. -/
theorem Step_exiting (hash : Bytes → Digest) (s s' : State) (out : Outcome)
    (h : Step hash s s') (ho : s.coll = CollPc.exiting out ∨ s.coll = CollPc.returned out) :
    s'.coll = CollPc.exiting out ∨ s'.coll = CollPc.returned out := by
  cases h <;> simp_all

theorem run_exiting (hash : Bytes → Digest) (sched : List Action) (s s' : State) (out : Outcome)
    (h : run hash s sched = some s')
    (ho : s.coll = CollPc.exiting out ∨ s.coll = CollPc.returned out) :
    s'.coll = CollPc.exiting out ∨ s'.coll = CollPc.returned out := by
  induction sched generalizing s with
  | nil => simp [run] at h; subst h; exact ho
  | cons a rest ih =>
    simp only [run] at h
    cases hs : step hash s a with
    | none => simp [hs] at h
    | some t =>
      simp only [hs] at h
      exact ih t h (Step_exiting hash s t out (step_sound hash s t a hs) ho)

theorem callbackErr_none (e : Entry) :
    e.callbackErr = none ↔ e.accessErr = none ∧ (e.isRegular = true → e.readErr = none) := by
  unfold Entry.callbackErr
  cases e.accessErr <;> cases e.isRegular <;> cases e.readErr <;> simp

theorem serialWalk_pass (hash : Bytes → Digest) (pre rest : List Entry) (m : DigestMap)
    (log : List SerialEvent) (h : ∀ f ∈ pre, f.callbackErr = none) :
    serialWalk hash (pre ++ rest) m log =
      serialWalk hash rest (serialMap hash pre ++ m) (log ++ serialEvents pre) := by
  induction pre generalizing m log with
  | nil => simp [serialMap, serialEvents]
  | cons e pre ih =>
    have he := (callbackErr_none e).mp (h e (by simp))
    have hpre : ∀ f ∈ pre, f.callbackErr = none := fun f hf => h f (by simp [hf])
    simp only [List.cons_append, serialWalk, he.1]
    cases hr : e.isRegular with
    | false =>
      simp only [Bool.not_false, if_true]
      change serialWalk hash (pre ++ rest) _ _ = _
      rw [ih _ _ hpre]
      simp [serialMap, serialEvents, hr]
    | true =>
      simp only [Bool.not_true, Bool.false_eq_true, if_false, he.2 hr]
      change serialWalk hash (pre ++ rest) _ _ = _
      rw [ih _ _ hpre]
      simp [serialMap, serialEvents, hr, DigestMap.set, List.filter_cons]

theorem serialWalk_fail (hash : Bytes → Digest) (e : Entry) (rest : List Entry) (m : DigestMap)
    (log : List SerialEvent) (err : Err) (h : e.callbackErr = some err) :
    serialWalk hash (e :: rest) m log =
      (some err, m, log ++ (if e.accessErr = none then [SerialEvent.readFile e.path] else [])) := by
  unfold Entry.callbackErr at h
  simp only [serialWalk]
  cases ha : e.accessErr with
  | some c => simp_all
  | none =>
    simp only [ha] at h
    cases hr : e.isRegular with
    | false => simp [hr] at h
    | true =>
      simp only [hr, Bool.not_true, Bool.false_eq_true, if_false] at h ⊢
      cases hre : e.readErr with
      | none => simp [hre] at h
      | some c => simp_all

/-- The entries either all pass, or split at the first one on which the callback fails. -/
theorem first_failure (entries : List Entry) :
    (∀ f ∈ entries, f.callbackErr = none) ∨
    ∃ pre e post err, entries = pre ++ e :: post ∧ (∀ f ∈ pre, f.callbackErr = none) ∧
      e.callbackErr = some err := by
  induction entries with
  | nil => left; simp
  | cons a l ih =>
    cases ha : a.callbackErr with
    | some err => exact Or.inr ⟨[], a, l, err, by simp, by simp, ha⟩
    | none =>
      rcases ih with ih | ⟨pre, e, post, err, h1, h2, h3⟩
      · left
        intro f hf
        simp at hf
        rcases hf with hf | hf
        · subst hf; exact ha
        · exact ih f hf
      · right
        refine ⟨a :: pre, e, post, err, by simp [h1], ?_, h3⟩
        intro f hf
        simp at hf
        rcases hf with hf | hf
        · subst hf; exact ha
        · exact h2 f hf

theorem serial_fail (hash : Bytes → Digest) (pre post : List Entry) (e : Entry) (err : Err)
    (hpre : ∀ f ∈ pre, f.callbackErr = none) (he : e.callbackErr = some err) :
    MD5AllSerial hash (pre ++ e :: post) = (none, some err) ∧
    serialLog hash (pre ++ e :: post) =
      serialEvents pre ++ (if e.accessErr = none then [SerialEvent.readFile e.path] else []) := by
  unfold MD5AllSerial serialLog
  rw [serialWalk_pass hash pre _ _ _ hpre, serialWalk_fail hash e post _ _ err he]
  simp

theorem serial_pass (hash : Bytes → Digest) (entries : List Entry)
    (h : ∀ f ∈ entries, f.callbackErr = none) :
    MD5AllSerial hash entries = (some (serialMap hash entries), none) ∧
    serialLog hash entries = serialEvents entries := by
  have := serialWalk_pass hash entries [] [] [] h
  simp only [List.append_nil, List.nil_append] at this
  unfold MD5AllSerial serialLog
  rw [this]
  simp [serialWalk]

theorem get_some_mem (m : DigestMap) (p : String) (d : Digest) (h : m.get p = some d) :
    (p, d) ∈ m := by
  unfold DigestMap.get at h
  induction m with
  | nil => simp at h
  | cons a m ih =>
    obtain ⟨k, v⟩ := a
    simp only [List.lookup_cons] at h
    by_cases hk : p = k
    · subst hk
      simp at h
      simp [h]
    · have : (p == k) = false := by simpa using hk
      simp only [this] at h
      exact List.mem_cons_of_mem _ (ih h)

theorem mem_get_some (m : DigestMap) (p : String) (d : Digest) (h : (p, d) ∈ m)
    (hf : ∀ d', (p, d') ∈ m → d' = d) : m.get p = some d := by
  unfold DigestMap.get
  induction m with
  | nil => simp at h
  | cons a m ih =>
    obtain ⟨k, v⟩ := a
    simp only [List.lookup_cons]
    by_cases hk : p = k
    · subst hk
      have := hf v (by simp)
      simp [this]
    · have hb : (p == k) = false := by simpa using hk
      simp only [hb]
      simp only [List.mem_cons, Prod.mk.injEq] at h
      rcases h with h | h
      · exact absurd h.1 hk
      · exact ih h (fun d' hd' => hf d' (List.mem_cons_of_mem _ hd'))

/-- A map whose bindings are the regular files of a tree with distinct paths sends each such
path to the hash of its file. -/
theorem get_of_bindings (hash : Bytes → Digest) (entries : List Entry) (m : DigestMap)
    (hnd : (entries.map Entry.path).Nodup)
    (hm : ∀ p d, (p, d) ∈ m ↔ ∃ f ∈ entries, f.isRegular = true ∧ f.path = p ∧ hash f.data = d)
    (p : String) (d : Digest) :
    m.get p = some d ↔ ∃ f ∈ entries, f.isRegular = true ∧ f.path = p ∧ hash f.data = d := by
  constructor
  · intro h
    exact (hm p d).mp (get_some_mem m p d h)
  · intro h
    refine mem_get_some m p d ((hm p d).mpr h) ?_
    intro d' hd'
    obtain ⟨f, hf, -, hfp, hfd⟩ := h
    obtain ⟨g, hg, -, hgp, hgd⟩ := (hm p d').mp hd'
    have : g = f := List.inj_on_of_nodup_map hnd hg hf (by rw [hgp, hfp])
    subst this
    rw [← hgd, ← hfd]

theorem serialMap_mem (hash : Bytes → Digest) (entries : List Entry) (p : String) (d : Digest) :
    (p, d) ∈ serialMap hash entries ↔
      ∃ f ∈ entries, f.isRegular = true ∧ f.path = p ∧ hash f.data = d := by
  unfold serialMap
  simp only [List.mem_reverse, List.mem_map, List.mem_filter, Prod.mk.injEq]
  constructor
  · rintro ⟨f, ⟨hf, hr⟩, hp, hd⟩
    exact ⟨f, hf, hr, hp, hd⟩
  · rintro ⟨f, hf, hr, hp, hd⟩
    exact ⟨f, ⟨hf, hr⟩, hp, hd⟩

/-- In two splits of one list, the pivot of the first split lies before the pivot of the second
when it has a property, shared by everything before it, that the second pivot lacks. -/
theorem pivot_mem_pre (P : Entry → Prop) (pre post pre' post' : List Entry) (e e' : Entry)
    (h : pre ++ e :: post = pre' ++ e' :: post') (hpre' : ∀ f ∈ pre', P f) (he' : P e')
    (he : ¬ P e) : e' ∈ pre := by
  induction pre generalizing pre' with
  | nil =>
    cases pre' with
    | nil => simp at h; exact absurd (h.1 ▸ he') he
    | cons a l => simp at h; exact absurd (hpre' a (by simp)) (h.1 ▸ he)
  | cons a pre ih =>
    cases pre' with
    | nil => simp at h; simp [h.1]
    | cons b l =>
      simp at h
      exact List.mem_cons_of_mem _ (ih l h.2 (fun f hf => hpre' f (by simp [hf])))

/-- The split of a list at its first element without a property is unique. -/
theorem pivot_unique (P : Entry → Prop) (pre post pre' post' : List Entry) (e e' : Entry)
    (h : pre ++ e :: post = pre' ++ e' :: post') (hpre : ∀ f ∈ pre, P f)
    (hpre' : ∀ f ∈ pre', P f) (he : ¬ P e) (he' : ¬ P e') : pre = pre' ∧ e = e' := by
  induction pre generalizing pre' with
  | nil =>
    cases pre' with
    | nil => simp at h; simp [h.1]
    | cons a l => simp at h; exact absurd (hpre' a (by simp)) (h.1 ▸ he)
  | cons a pre ih =>
    cases pre' with
    | nil => simp at h; exact absurd (hpre a (by simp)) (h.1 ▸ he')
    | cons b l =>
      simp at h
      obtain ⟨h1, h2⟩ := ih l h.2 (fun f hf => hpre f (by simp [hf]))
        (fun f hf => hpre' f (by simp [hf]))
      simp [h.1, h1, h2]

theorem send_error (hash : Bytes → Digest) (s0 s1 : State) (j : Nat) (u : HashUnit) (c : Nat)
    (hc1 : Ctl s1) (hu : s0.units.get? j = some u) (hre : u.entry.readErr = some c)
    (hs : step hash s0 (Action.send j) = some s1) :
    s1.coll = CollPc.exiting (none, some (Err.read c)) := by
  have hp := hc1.noPanic
  have hp0 : s0.panicked = false := by
    cases h : s0.panicked with
    | false => rfl
    | true => simp [step, h] at hs
  simp only [step, hp0, Bool.false_eq_true, if_false, stepUnit, hu] at hs
  cases hpc : u.pc with
  | reading => simp [hpc] at hs
  | finishing => simp [hpc] at hs
  | terminated => simp [hpc] at hs
  | selecting =>
    simp only [hpc] at hs
    cases hcc : s0.cClosed with
    | true =>
      simp only [hcc, if_true, Option.some.injEq] at hs
      subst hs
      simp at hp
    | false =>
      simp only [hcc, Bool.false_eq_true, if_false] at hs
      cases hl : s0.coll with
      | loop m =>
        simp only [hl, Option.some.injEq] at hs
        subst hs
        simp [receive, mkResult, hre]
      | drain m => simp [hl] at hs
      | exiting o => simp [hl] at hs
      | returned o => simp [hl] at hs

theorem Step_units (hash : Bytes → Digest) (s s' : State) (h : Step hash s s') :
    s.units.length ≤ s'.units.length := by
  cases h <;> simp_all

theorem run_units (hash : Bytes → Digest) (sched : List Action) (s s' : State)
    (h : run hash s sched = some s') : s.units.length ≤ s'.units.length := by
  induction sched generalizing s with
  | nil => simp [run] at h; subst h; exact le_refl _
  | cons a rest ih =>
    simp only [run] at h
    cases hs : step hash s a with
    | none => simp [hs] at h
    | some t =>
      simp only [hs] at h
      exact le_trans (Step_units hash s t (step_sound hash s t a hs)) (ih t h)

theorem get?_set_self {α : Type} (l : List α) (j : Nat) (u v : α) (h : l.get? j = some u) :
    (l.set j v).get? j = some v := by
  obtain ⟨l1, l2, -, h2, h3⟩ := get?_split l j u h
  rw [h3 v, ← h2]
  clear h h3 h2
  induction l1 with
  | nil => rfl
  | cons a l1 ih => simpa using ih

/-- After `done` is closed no unit is blocked: a unit that is not over can move. -/
theorem unit_moves (hash : Bytes → Digest) (s : State) (j : Nat) (u : HashUnit) (hc : Ctl s)
    (hd : s.done = true) (hu : s.units.get? j = some u) (hpc : u.pc ≠ UnitPc.terminated) :
    ∃ a t v, step hash s a = some t ∧ t.units.get? j = some v ∧ v.entry = u.entry ∧
      v.pc ≠ u.pc := by
  have hp := hc.noPanic
  cases h : u.pc with
  | reading =>
    refine ⟨Action.read j, { s with units := s.units.set j { u with pc := UnitPc.selecting } },
      { u with pc := UnitPc.selecting }, ?_, get?_set_self _ j u _ hu, rfl, by simp [h]⟩
    simp only [step, hp, Bool.false_eq_true, if_false, stepUnit, hu, h]
  | selecting =>
    refine ⟨Action.abandon j, { s with units := s.units.set j { u with pc := UnitPc.finishing } },
      { u with pc := UnitPc.finishing }, ?_, get?_set_self _ j u _ hu, rfl, by simp [h]⟩
    simp only [step, hp, Bool.false_eq_true, if_false, stepUnit, hu, h, hd, if_true]
  | finishing =>
    have hw : s.wg ≠ 0 := by
      obtain ⟨l1, l2, h1, -, -⟩ := get?_split _ _ _ hu
      have := hc.wgLive
      rw [h1, live_split] at this
      simp [h] at this
      omega
    refine ⟨Action.wgDone j,
      { s with units := s.units.set j { u with pc := UnitPc.terminated }, wg := s.wg - 1 },
      { u with pc := UnitPc.terminated }, ?_, get?_set_self _ j u _ hu, rfl, by simp [h]⟩
    simp only [step, hp, Bool.false_eq_true, if_false, stepUnit, hu, h, hw]
  | terminated => exact absurd h hpc

theorem walkResult_pass (pre post : List Entry) (h : ∀ f ∈ pre, f.accessErr = none) :
    walkResult (pre ++ post) = walkResult post := by
  induction pre with
  | nil => rfl
  | cons a l ih =>
    have ha := h a (by simp)
    simp only [List.cons_append, walkResult, ha]
    exact ih (fun f hf => h f (by simp [hf]))

/-- While `done` is open, the result of the walk is `walkResult`. -/
theorem WalkRes_value (entries pre post : List Entry) (r : Option Err)
    (hsplit : entries = pre ++ post) (hpre : ∀ f ∈ pre, f.accessErr = none)
    (h : WalkRes r post false) : r = walkResult entries := by
  rw [hsplit, walkResult_pass pre post hpre]
  unfold WalkRes at h
  split at h
  · subst h; rfl
  · obtain ⟨e, rest, h1, h2⟩ := h
    subst h1
    simp [walkResult, h2]
  · simp at h
  · exact absurd h id

/-- The value in `errc`, or about to be sent on it, is `walkResult` while `done` is open. -/
theorem errc_value (hash : Bytes → Digest) (entries : List Entry) (s : State) (r : Option Err)
    (hd : Dat hash entries s) (hdone : s.done = false)
    (h : s.prod = ProdPc.walked r ∨ s.prod = ProdPc.publish r ∨
      (s.prod = ProdPc.finished ∧ s.errc = some r)) : r = walkResult entries := by
  obtain ⟨pre, post, h1, h2, -, h4⟩ := hd.launched
  apply WalkRes_value entries pre post r h1 h2
  rw [← hdone]
  unfold ProdAt at h4
  rcases h with h | h | ⟨h, he⟩
  · simpa [h] using h4
  · simpa [h] using h4
  · simp only [h] at h4
    exact h4 r he

theorem Ret_init (entries : List Entry) : Ret entries (init entries) := by
  constructor <;> simp [init]

theorem Ret_step (hash : Bytes → Digest) (entries : List Entry) (s s' : State) (hc : Ctl s)
    (hd : Dat hash entries s) (hr : Ret entries s) (h : Step hash s s') : Ret entries s' := by
  obtain ⟨r1, r2⟩ := hr
  have hfin : ∀ r, s.errc = some r → s.prod = ProdPc.finished := by
    intro r he
    by_contra hne
    have := hc.errcEmpty hne
    simp [he] at this
  cases h
  case send l1 l2 u m hp hu hpc hcc hl =>
    cases hre : u.entry.readErr with
    | none =>
      refine ⟨?_, ?_⟩
      · intro out hout
        simp [receive, mkResult, hre] at hout
      · intro h1 h2
        obtain ⟨out, ho, -⟩ := r2 h1 h2
        simp [hl] at ho
    | some c =>
      refine ⟨?_, ?_⟩
      · intro out hout
        simp only [receive, mkResult, hre, Option.map_some', CollPc.exiting.injEq, reduceCtorEq,
          or_false] at hout
        exact Or.inr ⟨c, hout.symm⟩
      · intro h1 h2
        obtain ⟨out, ho, -⟩ := r2 h1 h2
        simp [hl] at ho
  case seeClosed m hp h hcc =>
    refine ⟨?_, ?_⟩
    · intro out hout
      simp at hout
    · intro h1 h2
      obtain ⟨out, ho, -⟩ := r2 h1 h2
      simp [h] at ho
  case recvErr m err hp h he =>
    have hdone : s.done = false := by
      cases hdn : s.done with
      | false => rfl
      | true =>
        obtain ⟨o, ho⟩ := hc.doneIff.mp hdn
        simp [h] at ho
    have hv := errc_value hash entries s _ hd hdone (Or.inr (Or.inr ⟨hfin _ he, he⟩))
    refine ⟨?_, ?_⟩
    · intro out hout
      exact Or.inl (hc.drainClosed m h)
    · intro h1 h2
      exact ⟨_, Or.inl rfl, hv⟩
  case recvNil m hp h he =>
    have hdone : s.done = false := by
      cases hdn : s.done with
      | false => rfl
      | true =>
        obtain ⟨o, ho⟩ := hc.doneIff.mp hdn
        simp [h] at ho
    have hv := errc_value hash entries s _ hd hdone (Or.inr (Or.inr ⟨hfin _ he, he⟩))
    refine ⟨?_, ?_⟩
    · intro out hout
      exact Or.inl (hc.drainClosed m h)
    · intro h1 h2
      exact ⟨_, Or.inl rfl, hv⟩
  case exit out0 hp h =>
    refine ⟨?_, ?_⟩
    · intro out hout
      simp only [CollPc.returned.injEq, reduceCtorEq, false_or] at hout
      subst hout
      exact r1 _ (Or.inl h)
    · intro h1 h2
      obtain ⟨out, ho, hv⟩ := r2 h1 h2
      simp only [h, CollPc.exiting.injEq, reduceCtorEq, or_false] at ho
      subst ho
      exact ⟨_, Or.inr rfl, hv⟩
  case close hp h hcc =>
    exact ⟨fun out hout => Or.inl rfl, r2⟩
  case publish r hp h he =>
    refine ⟨r1, ?_⟩
    intro h1 h2
    simp at h2
  all_goals first
    | exact ⟨r1, r2⟩
    | exact ⟨r1, fun h1 => by simp at h1⟩

theorem Ret_run (hash : Bytes → Digest) (entries : List Entry) (sched : List Action)
    (s s' : State) (hc : Ctl s) (hd : Dat hash entries s) (hr : Ret entries s)
    (h : run hash s sched = some s') : Ret entries s' := by
  induction sched generalizing s with
  | nil => simp [run] at h; subst h; exact hr
  | cons a rest ih =>
    simp only [run] at h
    cases hs : step hash s a with
    | none => simp [hs] at h
    | some t =>
      simp only [hs] at h
      have hst := step_sound hash s t a hs
      exact ih t (Ctl_step hash s t hc hst) (Dat_step hash entries s t hc hd hst)
        (Ret_step hash entries s t hc hd hr hst) h

theorem Ret_reach (hash : Bytes → Digest) (entries : List Entry) (sched : List Action)
    (s : State) (h : run hash (init entries) sched = some s) : Ret entries s :=
  Ret_run hash entries sched (init entries) s (Ctl_init entries) (Dat_init hash entries)
    (Ret_init entries) h

/-- C1. For a tree with pairwise distinct paths, every execution of `MD5AllParallel` returns,
and the map it returns equals the map of `MD5AllSerial` (both `nil`, or the same value at every
key); when every access and every read succeeds both return the map sending each regular file's
path to the hash of its contents. -/
theorem parallel_equiv_serial (hash : Bytes → Digest) (entries : List Entry)
    (hnd : (entries.map Entry.path).Nodup) :
    ParallelAlways hash entries (fun out =>
      SameMap out.1 (MD5AllSerial hash entries).1 ∧
      ((∀ f ∈ entries, f.accessErr = none ∧ (f.isRegular = true → f.readErr = none)) →
        ∃ mp ms, out = (some mp, none) ∧ MD5AllSerial hash entries = (some ms, none) ∧
          ∀ p d,
            (mp.get p = some d ↔
              ∃ f ∈ entries, f.isRegular = true ∧ f.path = p ∧ hash f.data = d) ∧
            (ms.get p = some d ↔
              ∃ f ∈ entries, f.isRegular = true ∧ f.path = p ∧ hash f.data = d))) := by
  apply parallelAlways_of
  intro out hposs
  rcases first_failure entries with hall | ⟨pre, e, post, err, hsplit, hpre, he⟩
  · have hser := (serial_pass hash entries hall).1
    have hok : ∀ f ∈ entries, f.accessErr = none ∧ (f.isRegular = true → f.readErr = none) :=
      fun f hf => (callbackErr_none f).mp (hall f hf)
    rcases hposs with ⟨pre, e, post, c, h1, -, -, h4, h5, -⟩ |
        ⟨pre, e, post, c, h1, -, h3, -, -⟩ | ⟨m, -, -, hm, hout⟩
    · have := (hok e (by simp [h1])).2 h4
      simp [h5] at this
    · have := (hok e (by simp [h1])).1
      simp [h3] at this
    · subst hout
      have hmp := get_of_bindings hash entries m hnd hm
      have hms := get_of_bindings hash entries (serialMap hash entries) hnd
        (serialMap_mem hash entries)
      refine ⟨?_, fun _ => ⟨m, serialMap hash entries, rfl, hser, fun p d => ⟨hmp p d, hms p d⟩⟩⟩
      rw [hser]
      intro p
      apply Option.ext
      intro d
      simp only [Option.mem_def]
      rw [hmp p d, hms p d]
  · have hser := (serial_fail hash pre post e err hpre he).1
    rw [← hsplit] at hser
    have hbad : ¬ (e.accessErr = none ∧ (e.isRegular = true → e.readErr = none)) := by
      rw [← callbackErr_none, he]; simp
    have hmem : e ∈ entries := by simp [hsplit]
    rcases hposs with ⟨_, _, _, c, -, -, -, -, -, hout⟩ | ⟨_, _, _, c, -, -, -, -, hout⟩ |
        ⟨m, h1, h2, -, -⟩
    · subst hout
      refine ⟨by rw [hser]; trivial, fun hok => absurd (hok e hmem) hbad⟩
    · subst hout
      refine ⟨by rw [hser]; trivial, fun hok => absurd (hok e hmem) hbad⟩
    · exact absurd ⟨h1 e hmem, h2 e hmem⟩ hbad

/-- Witness of C1: a tree with two files and a directory. -/
theorem parallel_equiv_serial_witness :
    ([fileA, dirB, fileB].map Entry.path).Nodup ∧
    ParallelAlways exHash [fileA, dirB, fileB] (fun out =>
      SameMap out.1 (MD5AllSerial exHash [fileA, dirB, fileB]).1 ∧
      ((∀ f ∈ [fileA, dirB, fileB], f.accessErr = none ∧ (f.isRegular = true → f.readErr = none)) →
        ∃ mp ms, out = (some mp, none) ∧
          MD5AllSerial exHash [fileA, dirB, fileB] = (some ms, none) ∧
          ∀ p d,
            (mp.get p = some d ↔
              ∃ f ∈ [fileA, dirB, fileB], f.isRegular = true ∧ f.path = p ∧ exHash f.data = d) ∧
            (ms.get p = some d ↔
              ∃ f ∈ [fileA, dirB, fileB], f.isRegular = true ∧ f.path = p ∧ exHash f.data = d))) :=
  ⟨by decide, parallel_equiv_serial exHash [fileA, dirB, fileB] (by decide)⟩

/-- C2. In a tree whose walk succeeds and in which exactly one regular file `e` is unreadable,
every execution of `MD5AllParallel` returns, and it returns the read error of `e` with a `nil`
map, whatever results were received before. -/
theorem parallel_fail_fast (hash : Bytes → Digest) (pre post : List Entry) (e : Entry) (c : Nat)
    (hacc : ∀ f ∈ pre ++ e :: post, f.accessErr = none)
    (hreg : e.isRegular = true) (hbad : e.readErr = some c)
    (hothers : ∀ f ∈ pre ++ post, f.isRegular = true → f.readErr = none) :
    ParallelAlways hash (pre ++ e :: post) (fun out => out = (none, some (Err.read c))) := by
  apply parallelAlways_of
  intro out hposs
  rcases hposs with ⟨pre', e', post', c', h1, -, -, h4, h5, hout⟩ |
      ⟨pre', e', post', c', h1, -, h3, -, -⟩ | ⟨m, -, h2, -, -⟩
  · have hmem : e' ∈ pre ++ e :: post := by rw [h1]; simp
    simp only [List.mem_append, List.mem_cons] at hmem
    rcases hmem with hm | hm | hm
    · have := hothers e' (by simp [hm]) h4
      simp [h5] at this
    · subst hm
      rw [hbad] at h5
      cases h5
      exact hout
    · have := hothers e' (by simp [hm]) h4
      simp [h5] at this
  · have := hacc e' (by rw [h1]; simp)
    simp [h3] at this
  · have := h2 e (by simp) hreg
    simp [hbad] at this

/-- Witness of C2: the unreadable file is walked last, after two readable ones. -/
theorem parallel_fail_fast_witness :
    (∀ f ∈ [fileA, fileB] ++ badFile :: [], f.accessErr = none) ∧
    badFile.isRegular = true ∧ badFile.readErr = some 13 ∧
    (∀ f ∈ [fileA, fileB] ++ [], f.isRegular = true → f.readErr = none) ∧
    ParallelAlways exHash ([fileA, fileB] ++ badFile :: [])
      (fun out => out = (none, some (Err.read 13))) :=
  ⟨by decide, by decide, by decide, by decide,
    parallel_fail_fast exHash [fileA, fileB] [] badFile 13 (by decide) (by decide) (by decide)
      (by decide)⟩

/-- C3. `MD5AllSerial` fails with the first failure in walk order: when the callback passes the
entries `pre` and fails on `e` (access error, or regular file whose read fails), the call returns
that error and a `nil` map, and its reads and hashes are those of `pre` and at most the read of
`e`, none of a later entry; when the callback passes every entry, the call returns a `nil` error
and the map of all regular files. -/
theorem serial_first_failure (hash : Bytes → Digest) (entries : List Entry) :
    (∀ pre e post err, entries = pre ++ e :: post →
      (∀ f ∈ pre, f.accessErr = none ∧ (f.isRegular = true → f.readErr = none)) →
      ((∃ c, e.accessErr = some c ∧ err = Err.traversal c) ∨
        (∃ c, e.accessErr = none ∧ e.isRegular = true ∧ e.readErr = some c ∧ err = Err.read c)) →
      MD5AllSerial hash entries = (none, some err) ∧
      serialLog hash entries =
        serialEvents pre ++ (if e.accessErr = none then [SerialEvent.readFile e.path] else [])) ∧
    ((∀ f ∈ entries, f.accessErr = none ∧ (f.isRegular = true → f.readErr = none)) →
      MD5AllSerial hash entries = (some (serialMap hash entries), none) ∧
      serialLog hash entries = serialEvents entries ∧
      ∀ p d, (p, d) ∈ serialMap hash entries ↔
        ∃ f ∈ entries, f.isRegular = true ∧ f.path = p ∧ hash f.data = d) := by
  constructor
  · intro pre e post err hsplit hpre he
    subst hsplit
    apply serial_fail hash pre post e err
    · exact fun f hf => (callbackErr_none f).mpr (hpre f hf)
    · unfold Entry.callbackErr
      rcases he with ⟨c, h1, h2⟩ | ⟨c, h1, h2, h3, h4⟩
      · simp [h1, h2]
      · simp [h1, h2, h3, h4]
  · intro hall
    have := serial_pass hash entries (fun f hf => (callbackErr_none f).mpr (hall f hf))
    exact ⟨this.1, this.2, serialMap_mem hash entries⟩

/-- Witness of C3: an unreadable file between two readable ones, and a tree without failure. -/
theorem serial_first_failure_witness :
    (MD5AllSerial exHash [fileA, badFile, fileB] = (none, some (Err.read 13)) ∧
      serialLog exHash [fileA, badFile, fileB] =
        serialEvents [fileA] ++
          (if badFile.accessErr = none then [SerialEvent.readFile badFile.path] else [])) ∧
    (MD5AllSerial exHash [fileA, dirB, fileB] =
        (some (serialMap exHash [fileA, dirB, fileB]), none) ∧
      serialLog exHash [fileA, dirB, fileB] = serialEvents [fileA, dirB, fileB] ∧
      ∀ p d, (p, d) ∈ serialMap exHash [fileA, dirB, fileB] ↔
        ∃ f ∈ [fileA, dirB, fileB], f.isRegular = true ∧ f.path = p ∧ exHash f.data = d) :=
  ⟨(serial_first_failure exHash [fileA, badFile, fileB]).1 [fileA] badFile [fileB] (Err.read 13)
      rfl (by decide) (Or.inr ⟨13, rfl, rfl, rfl, rfl⟩),
    (serial_first_failure exHash [fileA, dirB, fileB]).2 (by decide)⟩

/-- C4. The error `MD5AllParallel` returns is never the walk's cancellation error; and when
the collector receives a result carrying an error (the step `send j` of a unit whose read
failed), the call returns exactly that error. -/
theorem cancellation_never_surfaces (hash : Bytes → Digest) (entries : List Entry)
    (sched : List Action) (s : State) (out : Outcome)
    (hrun : run hash (init entries) sched = some s) (hret : s.coll = CollPc.returned out) :
    out.2 ≠ some Err.walkCancelled ∧
    ∀ before after j s0 u c, sched = before ++ Action.send j :: after →
      run hash (init entries) before = some s0 → s0.units.get? j = some u →
      u.entry.readErr = some c → out = (none, some (Err.read c)) := by
  constructor
  · have hposs := (Inv_reach hash entries sched s hrun).2.outcome out (Or.inr hret)
    rcases hposs with ⟨_, _, _, _, -, -, -, -, -, hout⟩ | ⟨_, _, _, _, -, -, -, -, hout⟩ |
        ⟨_, -, -, -, hout⟩ <;> subst hout <;> simp
  · intro before after j s0 u c hsched h0 hu hre
    subst hsched
    rw [run_append, h0] at hrun
    simp only [Option.some_bind, run] at hrun
    cases hs : step hash s0 (Action.send j) with
    | none => simp [hs] at hrun
    | some s1 =>
      simp only [hs] at hrun
      have hc0 := (Inv_reach hash entries before s0 h0).1
      have hc1 := Ctl_step hash s0 s1 hc0 (step_sound hash s0 s1 _ hs)
      have h1 := send_error hash s0 s1 j u c hc1 hu hre hs
      rcases run_exiting hash after s1 s _ hrun (Or.inl h1) with h | h
      · rw [hret] at h; cases h
      · rw [hret] at h; cases h; rfl

/-- Witness of C4: the readable file's result is received first, then the failing one. -/
theorem cancellation_never_surfaces_witness :
    run exHash (init [fileA, badFile])
      ([Action.producer, Action.producer, Action.producer, Action.producer, Action.producer,
        Action.producer, Action.read 0, Action.read 1, Action.send 0] ++
        Action.send 1 :: [Action.collector]) = some exFailed ∧
    exFailed.coll = CollPc.returned (none, some (Err.read 13)) ∧
    ((none, some (Err.read 13)) : Outcome).2 ≠ some Err.walkCancelled ∧
    ∀ before after j s0 u c,
      [Action.producer, Action.producer, Action.producer, Action.producer, Action.producer,
        Action.producer, Action.read 0, Action.read 1, Action.send 0] ++
        Action.send 1 :: [Action.collector] = before ++ Action.send j :: after →
      run exHash (init [fileA, badFile]) before = some s0 → s0.units.get? j = some u →
      u.entry.readErr = some c →
      ((none, some (Err.read 13)) : Outcome) = (none, some (Err.read c)) :=
  ⟨by decide, rfl,
    cancellation_never_surfaces exHash [fileA, badFile] _ exFailed _ (by decide) rfl⟩

/-- C5, as stated, fails: on `[dirB, badFile, fileA]` the call returns the read error of
`badFile` while the unit of `fileA` is still inside `ioutil.ReadFile`. -/
theorem no_leak_counterexample :
    run exHash (init [dirB, badFile, fileA]) schedLeft = some exLeft ∧
    exLeft.coll = CollPc.returned (none, some (Err.read 13)) ∧
    ∃ u ∈ exLeft.units, u.pc = UnitPc.reading := by
  decide

/-- C5, amended. When `MD5AllParallel` has returned anything but the read error of a hashing
unit (the map, or the walk's traversal error), every hashing unit that was started is over.
When it has returned a unit's read error, units may still run, but no unit is blocked (a unit
that is not over can make a step of its own). In both cases the pipeline can run on to a state
in which every goroutine is over, the units started so far among them, and no schedule is longer
than `measure (init entries)`. -/
theorem units_terminate (hash : Bytes → Digest) (entries : List Entry) (sched : List Action)
    (s : State) (out : Outcome)
    (hrun : run hash (init entries) sched = some s) (hret : s.coll = CollPc.returned out) :
    ((∀ c, out.2 ≠ some (Err.read c)) → ∀ u ∈ s.units, u.pc = UnitPc.terminated) ∧
    (∀ j u, s.units.get? j = some u → u.pc ≠ UnitPc.terminated →
      ∃ a t v, step hash s a = some t ∧ t.units.get? j = some v ∧ v.entry = u.entry ∧
        v.pc ≠ u.pc) ∧
    (∃ rest t, run hash s rest = some t ∧ Terminal t ∧ s.units.length ≤ t.units.length) ∧
    sched.length ≤ measure (init entries) := by
  obtain ⟨hc, -⟩ := Inv_reach hash entries sched s hrun
  have hr := Ret_reach hash entries sched s hrun
  refine ⟨?_, ?_, ?_, ?_⟩
  · intro hne
    rcases hr.settled out (Or.inr hret) with hcl | ⟨c, hout⟩
    · exact hc.closed_terminated hcl
    · subst hout
      exact absurd rfl (hne c)
  · intro j u hu hpc
    exact unit_moves hash s j u hc (hc.doneIff.mpr ⟨out, hret⟩) hu hpc
  · obtain ⟨rest, t, hr, ht⟩ := completion hash (measure s) s (le_refl _) hc
    exact ⟨rest, t, hr, ht, run_units hash rest s t hr⟩
  · have := run_length hash sched (init entries) s hrun
    omega

/-- Witness of C5: a return of the walk's traversal error, with the one started unit over, and
the return of the counterexample, with a unit still reading. -/
theorem units_terminate_witness :
    (run exHash (init [dirB, fileA, badDir]) schedWalkFailed = some exWalkFailed ∧
      exWalkFailed.coll = CollPc.returned (none, some (Err.traversal 2)) ∧
      (∀ c, ((none, some (Err.traversal 2)) : Outcome).2 ≠ some (Err.read c)) ∧
      exWalkFailed.units = [⟨fileA, UnitPc.terminated⟩] ∧
      (((∀ c, ((none, some (Err.traversal 2)) : Outcome).2 ≠ some (Err.read c)) →
          ∀ u ∈ exWalkFailed.units, u.pc = UnitPc.terminated) ∧
        (∀ j u, exWalkFailed.units.get? j = some u → u.pc ≠ UnitPc.terminated →
          ∃ a t v, step exHash exWalkFailed a = some t ∧ t.units.get? j = some v ∧
            v.entry = u.entry ∧ v.pc ≠ u.pc) ∧
        (∃ rest t, run exHash exWalkFailed rest = some t ∧ Terminal t ∧
          exWalkFailed.units.length ≤ t.units.length) ∧
        schedWalkFailed.length ≤ measure (init [dirB, fileA, badDir]))) ∧
    (run exHash (init [dirB, badFile, fileA]) schedLeft = some exLeft ∧
      exLeft.coll = CollPc.returned (none, some (Err.read 13)) ∧
      exLeft.units.get? 1 = some ⟨fileA, UnitPc.reading⟩ ∧
      (((∀ c, ((none, some (Err.read 13)) : Outcome).2 ≠ some (Err.read c)) →
          ∀ u ∈ exLeft.units, u.pc = UnitPc.terminated) ∧
        (∀ j u, exLeft.units.get? j = some u → u.pc ≠ UnitPc.terminated →
          ∃ a t v, step exHash exLeft a = some t ∧ t.units.get? j = some v ∧
            v.entry = u.entry ∧ v.pc ≠ u.pc) ∧
        (∃ rest t, run exHash exLeft rest = some t ∧ Terminal t ∧
          exLeft.units.length ≤ t.units.length) ∧
        schedLeft.length ≤ measure (init [dirB, badFile, fileA]))) :=
  ⟨⟨by decide, rfl, by simp, rfl,
      units_terminate exHash [dirB, fileA, badDir] schedWalkFailed exWalkFailed _ (by decide) rfl⟩,
    ⟨by decide, rfl, rfl,
      units_terminate exHash [dirB, badFile, fileA] schedLeft exLeft _ (by decide) rfl⟩⟩

/-- C6. On a tree whose walk succeeds and yields no regular file, `MD5AllSerial` returns the
empty map and a `nil` error, and every execution of `MD5AllParallel` returns, with the empty
map and a `nil` error. -/
theorem empty_tree (hash : Bytes → Digest) (entries : List Entry)
    (h : ∀ f ∈ entries, f.accessErr = none ∧ f.isRegular = false) :
    MD5AllSerial hash entries = (some [], none) ∧
    ParallelAlways hash entries (fun out => out = (some [], none)) := by
  constructor
  · have hall : ∀ f ∈ entries, f.callbackErr = none := by
      intro f hf
      rw [callbackErr_none]
      exact ⟨(h f hf).1, by simp [(h f hf).2]⟩
    rw [(serial_pass hash entries hall).1]
    have : entries.filter (fun f => f.isRegular) = [] := by
      rw [List.filter_eq_nil_iff]
      intro f hf
      simp [(h f hf).2]
    simp [serialMap, this]
  · apply parallelAlways_of
    intro out hposs
    rcases hposs with ⟨pre, e, post, c, h1, -, -, h4, -, -⟩ |
        ⟨pre, e, post, c, h1, -, h3, -, -⟩ | ⟨m, -, -, hm, hout⟩
    · have := (h e (by simp [h1])).2
      simp [h4] at this
    · have := (h e (by simp [h1])).1
      simp [h3] at this
    · subst hout
      have : m = [] := by
        rw [List.eq_nil_iff_forall_not_mem]
        rintro ⟨p, d⟩ hpd
        obtain ⟨f, hf, hr, -⟩ := (hm p d).mp hpd
        have := (h f hf).2
        simp [hr] at this
      rw [this]

/-- Witness of C6: a tree that is a single directory. -/
theorem empty_tree_witness :
    (∀ f ∈ [dirB], f.accessErr = none ∧ f.isRegular = false) ∧
    MD5AllSerial exHash [dirB] = (some [], none) ∧
    ParallelAlways exHash [dirB] (fun out => out = (some [], none)) :=
  ⟨by decide, empty_tree exHash [dirB] (by decide)⟩

/-- C7. When the walker calls the callback for the root with an access error, `MD5AllSerial`
returns that error and a `nil` map, every execution of `MD5AllParallel` returns, with that error
and a `nil` map, and no hashing unit is ever started. -/
theorem missing_root (hash : Bytes → Digest) (e : Entry) (rest : List Entry) (c : Nat)
    (he : e.accessErr = some c) :
    MD5AllSerial hash (e :: rest) = (none, some (Err.traversal c)) ∧
    ParallelAlways hash (e :: rest) (fun out => out = (none, some (Err.traversal c))) ∧
    ∀ sched s, run hash (init (e :: rest)) sched = some s → s.units = [] := by
  have hne : ¬ e.accessErr = none := by simp [he]
  refine ⟨?_, ?_, ?_⟩
  · have := (serial_fail hash [] rest e (Err.traversal c) (by simp)
      (by simp [Entry.callbackErr, he])).1
    simpa using this
  · apply parallelAlways_of
    intro out hposs
    rcases hposs with ⟨pre, e', post, c', h1, h2, h3, -, -, -⟩ |
        ⟨pre, e', post, c', h1, h2, h3, -, hout⟩ | ⟨m, h1, -, -, -⟩
    · cases pre with
      | nil => simp at h1; exact absurd (h1.1 ▸ h3) hne
      | cons a l => simp at h1; exact absurd (h2 a (by simp)) (h1.1 ▸ hne)
    · cases pre with
      | nil =>
        simp at h1
        rw [← h1.1, he] at h3
        cases h3
        exact hout
      | cons a l => simp at h1; exact absurd (h2 a (by simp)) (h1.1 ▸ hne)
    · exact absurd (h1 e (by simp)) hne
  · intro sched s hrun
    obtain ⟨pre, post, h1, h2, h3, -⟩ := (Inv_reach hash (e :: rest) sched s hrun).2.launched
    cases pre with
    | nil => simpa using h3
    | cons a l => simp at h1; exact absurd (h2 a (by simp)) (h1.1 ▸ hne)

/-- Witness of C7: the root cannot be accessed. -/
theorem missing_root_witness :
    badDir.accessErr = some 2 ∧
    MD5AllSerial exHash (badDir :: []) = (none, some (Err.traversal 2)) ∧
    ParallelAlways exHash (badDir :: []) (fun out => out = (none, some (Err.traversal 2))) ∧
    ∀ sched s, run exHash (init (badDir :: [])) sched = some s → s.units = [] :=
  ⟨rfl, missing_root exHash badDir [] 2 rfl⟩

/-- C8, as stated, fails: on `[badFile, badDir]` the walk fails with a traversal error and the
unit started for `badFile` fails to read; an execution returns the read error, but no execution
returns the traversal error. -/
theorem race_counterexample :
    badFile.isRegular = true ∧ badFile.readErr = some 13 ∧ badDir.accessErr = some 2 ∧
    ParallelReturns exHash [badFile, badDir] (none, some (Err.read 13)) ∧
    ¬ ParallelReturns exHash [badFile, badDir] (none, some (Err.traversal 2)) := by
  refine ⟨rfl, rfl, rfl, ?_, ?_⟩
  · exact ⟨[Action.producer, Action.producer, Action.producer, Action.read 0, Action.send 0,
      Action.collector], _, rfl, rfl⟩
  · intro h
    rcases returns_possible exHash _ _ h with ⟨_, _, _, _, -, -, -, -, -, hout⟩ |
        ⟨pre, e, post, c, h1, h2, h3, h4, -⟩ | ⟨m, -, -, -, hout⟩
    · cases hout
    · have := pivot_unique (fun f => f.accessErr = none) [badFile] [] pre post badDir e
        (by simpa using h1) (by decide) h2 (by decide) (by simp [h3])
      have h5 := h4 badFile (by simp [← this.1]) rfl
      simp [badFile] at h5
    · cases hout

/-- C8, amended. When the walk fails with a traversal error on `e` and some unit started before
(a regular file among `pre`) fails to read, every execution of `MD5AllParallel` returns, and it
returns the read error of a unit that was started, with a `nil` map; the traversal error is
not returned. -/
theorem read_error_wins (hash : Bytes → Digest) (pre post : List Entry) (e : Entry) (ct : Nat)
    (hpre : ∀ f ∈ pre, f.accessErr = none) (he : e.accessErr = some ct)
    (hbad : ∃ f ∈ pre, f.isRegular = true ∧ f.readErr ≠ none) :
    ParallelAlways hash (pre ++ e :: post) (fun out =>
      (∃ f ∈ pre, ∃ c, f.isRegular = true ∧ f.readErr = some c ∧
        out = (none, some (Err.read c))) ∧
      out ≠ (none, some (Err.traversal ct))) := by
  have hne : ¬ e.accessErr = none := by simp [he]
  apply parallelAlways_of
  intro out hposs
  rcases hposs with ⟨pre', e', post', c, h1, h2, h3, h4, h5, hout⟩ |
      ⟨pre', e', post', c, h1, h2, h3, h4, -⟩ | ⟨m, h1, -, -, -⟩
  · have hmem := pivot_mem_pre (fun f => f.accessErr = none) pre post pre' post' e e' h1 h2 h3 hne
    subst hout
    exact ⟨⟨e', hmem, c, h4, h5, rfl⟩, by simp⟩
  · have := pivot_unique (fun f => f.accessErr = none) pre post pre' post' e e' h1 hpre h2 hne
      (by simp [h3])
    obtain ⟨f, hf, hr, hre⟩ := hbad
    exact absurd (h4 f (this.1 ▸ hf) hr) hre
  · exact absurd (h1 e (by simp)) hne

/-- Witness of C8: an unreadable file walked before an inaccessible directory. -/
theorem read_error_wins_witness :
    (∀ f ∈ [fileA, badFile], f.accessErr = none) ∧ badDir.accessErr = some 2 ∧
    (∃ f ∈ [fileA, badFile], f.isRegular = true ∧ f.readErr ≠ none) ∧
    ParallelAlways exHash ([fileA, badFile] ++ badDir :: [fileB]) (fun out =>
      (∃ f ∈ [fileA, badFile], ∃ c, f.isRegular = true ∧ f.readErr = some c ∧
        out = (none, some (Err.read c))) ∧
      out ≠ (none, some (Err.traversal 2))) :=
  ⟨by decide, rfl, by decide,
    read_error_wins exHash [fileA, badFile] [fileB] badDir 2 (by decide) rfl (by decide)⟩

/-- C9, as stated, fails: on `[dirB]` the closer can close `c`, and the collector can leave
its loop and stand at `<-errc`, before the producer has sent the walk's result on `errc`. -/
theorem errc_counterexample :
    run exHash (init [dirB]) schedDrain = some exDrain ∧
    exDrain.cClosed = true ∧ exDrain.coll = CollPc.drain [] ∧ exDrain.errc = none := by
  decide

/-- C9, amended. Whenever `c` is closed the walk has returned and its result `r` is on the way
to the collector: the producer is at `errc <- err` with `errc` empty, a send it can make at
once, or `r` is in `errc`, or the collector has taken it and returns it; while `done` is open
`r` is `walkResult entries`. A collector at `<-errc` receives exactly that value, and leaves
with the outcome it gives, by its own step when the value is in `errc` and else right after
the producer's send. -/
theorem errc_available (hash : Bytes → Digest) (entries : List Entry) (sched : List Action)
    (s : State) (hrun : run hash (init entries) sched = some s) (hclosed : s.cClosed = true) :
    ((∃ r, (s.done = false → r = walkResult entries) ∧
        ((s.prod = ProdPc.publish r ∧ s.errc = none ∧
            step hash s Action.producer =
              some { s with prod := ProdPc.finished, errc := some r }) ∨
          (s.prod = ProdPc.finished ∧ s.errc = some r))) ∨
      (s.prod = ProdPc.finished ∧ s.errc = none ∧
        ∃ out, (s.coll = CollPc.exiting out ∨ s.coll = CollPc.returned out) ∧
          out.2 = walkResult entries)) ∧
    (∀ m, s.coll = CollPc.drain m →
      ∃ t, run hash s
          (if s.errc = none then [Action.producer, Action.collector] else [Action.collector]) =
            some t ∧
        t.coll = CollPc.exiting
          (match walkResult entries with
            | some err => (none, some err)
            | none => (some m, none)) ∧
        t.errc = none) := by
  obtain ⟨hc, hd⟩ := Inv_reach hash entries sched s hrun
  have hr := Ret_reach hash entries sched s hrun
  have hnp := hc.noPanic
  have hcl := hc.closedIff.mp hclosed
  have hw : ¬ s.prod.walking = true := by
    rw [← hc.closerAbsent, hcl]; simp
  have hpub : ∀ r, s.prod = ProdPc.publish r →
      s.errc = none ∧ step hash s Action.producer =
        some { s with prod := ProdPc.finished, errc := some r } := by
    intro r hp
    have he := hc.errcEmpty (by simp [hp])
    exact ⟨he, by simp only [step, hnp, Bool.false_eq_true, if_false, stepProducer, hp, he]⟩
  constructor
  · cases hp : s.prod with
    | visit rest => simp [hp, ProdPc.walking] at hw
    | spawn e rest => simp [hp, ProdPc.walking] at hw
    | check rest => simp [hp, ProdPc.walking] at hw
    | walked r => simp [hp, ProdPc.walking] at hw
    | publish r =>
      exact Or.inl ⟨r, fun hdone => errc_value hash entries s r hd hdone (Or.inr (Or.inl hp)),
        Or.inl ⟨rfl, (hpub r hp).1, (hpub r hp).2⟩⟩
    | finished =>
      cases he : s.errc with
      | none => exact Or.inr ⟨rfl, rfl, hr.taken hp he⟩
      | some r =>
        exact Or.inl ⟨r,
          fun hdone => errc_value hash entries s r hd hdone (Or.inr (Or.inr ⟨hp, he⟩)),
          Or.inr ⟨rfl, rfl⟩⟩
  · intro m hm
    have hdone : s.done = false := by
      cases hdn : s.done with
      | false => rfl
      | true =>
        obtain ⟨o, ho⟩ := hc.doneIff.mp hdn
        simp [hm] at ho
    cases he : s.errc with
    | none =>
      cases hp : s.prod with
      | visit rest => simp [hp, ProdPc.walking] at hw
      | spawn e rest => simp [hp, ProdPc.walking] at hw
      | check rest => simp [hp, ProdPc.walking] at hw
      | walked r => simp [hp, ProdPc.walking] at hw
      | finished =>
        obtain ⟨out, ho, -⟩ := hr.taken hp he
        simp [hm] at ho
      | publish r =>
        have hv := errc_value hash entries s r hd hdone (Or.inr (Or.inl hp))
        simp only [if_true, run, (hpub r hp).2]
        rw [← hv]
        cases r with
        | none =>
          simp only [step, hnp, Bool.false_eq_true, if_false, stepCollector, hm]
          exact ⟨_, rfl, rfl, rfl⟩
        | some err =>
          simp only [step, hnp, Bool.false_eq_true, if_false, stepCollector, hm]
          exact ⟨_, rfl, rfl, rfl⟩
    | some r =>
      have hp : s.prod = ProdPc.finished := by
        by_contra hne
        have := hc.errcEmpty hne
        simp [he] at this
      have hv := errc_value hash entries s r hd hdone (Or.inr (Or.inr ⟨hp, he⟩))
      simp only [reduceCtorEq, if_false, run]
      rw [← hv]
      cases r with
      | none =>
        simp only [step, hnp, Bool.false_eq_true, if_false, stepCollector, hm, he]
        exact ⟨_, rfl, rfl, rfl⟩
      | some err =>
        simp only [step, hnp, Bool.false_eq_true, if_false, stepCollector, hm, he]
        exact ⟨_, rfl, rfl, rfl⟩

/-- Witness of C9: the state of the counterexample, where the collector waits for the
producer's send and then receives `nil`, the result of the walk of `[dirB]`. -/
theorem errc_available_witness :
    run exHash (init [dirB]) schedDrain = some exDrain ∧
    exDrain.cClosed = true ∧
    walkResult [dirB] = none ∧
    (((∃ r, (exDrain.done = false → r = walkResult [dirB]) ∧
        ((exDrain.prod = ProdPc.publish r ∧ exDrain.errc = none ∧
            step exHash exDrain Action.producer =
              some { exDrain with prod := ProdPc.finished, errc := some r }) ∨
          (exDrain.prod = ProdPc.finished ∧ exDrain.errc = some r))) ∨
      (exDrain.prod = ProdPc.finished ∧ exDrain.errc = none ∧
        ∃ out, (exDrain.coll = CollPc.exiting out ∨ exDrain.coll = CollPc.returned out) ∧
          out.2 = walkResult [dirB])) ∧
    (∀ m, exDrain.coll = CollPc.drain m →
      ∃ t, run exHash exDrain
          (if exDrain.errc = none then [Action.producer, Action.collector]
            else [Action.collector]) = some t ∧
        t.coll = CollPc.exiting
          (match walkResult [dirB] with
            | some err => (none, some err)
            | none => (some m, none)) ∧
        t.errc = none)) :=
  ⟨by decide, rfl, rfl, errc_available exHash [dirB] schedDrain exDrain (by decide) rfl⟩

/-- C10. In every reachable state, if `c` is closed then the walk has returned (the producer is
at `errc <- err` or over), the counter of `wg` is zero, every unit started is over, and no
send on `c` can be attempted; the closer reaches `close(c)` only while `c` is open; and no
goroutine has panicked, so `c` is never closed twice nor sent on after its close. -/
theorem liveness_barrier (hash : Bytes → Digest) (entries : List Entry) (sched : List Action)
    (s : State) (hrun : run hash (init entries) sched = some s) :
    (s.cClosed = true →
      ((∃ r, s.prod = ProdPc.publish r) ∨ s.prod = ProdPc.finished) ∧ s.wg = 0 ∧
      (∀ u ∈ s.units, u.pc = UnitPc.terminated) ∧
      ∀ j, step hash s (Action.send j) = none) ∧
    (s.closer = CloserPc.closing → s.cClosed = false) ∧
    s.panicked = false := by
  have hc := (Inv_reach hash entries sched s hrun).1
  refine ⟨?_, ?_, hc.noPanic⟩
  · intro hclosed
    have hcl := hc.closedIff.mp hclosed
    have hw : ¬ s.prod.walking = true := by
      rw [← hc.closerAbsent, hcl]; simp
    have hterm := hc.closed_terminated hclosed
    refine ⟨?_, hc.closingZero (Or.inr hcl), hterm, ?_⟩
    · cases hp : s.prod with
      | visit rest => simp [hp, ProdPc.walking] at hw
      | spawn e rest => simp [hp, ProdPc.walking] at hw
      | check rest => simp [hp, ProdPc.walking] at hw
      | walked r => simp [hp, ProdPc.walking] at hw
      | publish r => exact Or.inl ⟨r, rfl⟩
      | finished => exact Or.inr rfl
    · intro j
      simp only [step, hc.noPanic, Bool.false_eq_true, if_false, stepUnit]
      cases hu : s.units.get? j with
      | none => rfl
      | some u =>
        have := hterm u (List.get?_mem hu)
        simp only [this]
  · intro hcl
    cases hcc : s.cClosed with
    | false => rfl
    | true =>
      have := hc.closedIff.mp hcc
      simp [hcl] at this

/-- Witness of C10: the tree `[dirB, fileA, fileB]`, after both units sent their result and
ran `wg.Done()` and the closer closed `c`. -/
theorem liveness_barrier_witness :
    run exHash (init [dirB, fileA, fileB]) schedClosed = some exClosed ∧
    exClosed.cClosed = true ∧
    exClosed.units = [⟨fileA, UnitPc.terminated⟩, ⟨fileB, UnitPc.terminated⟩] ∧
    ((exClosed.cClosed = true →
      ((∃ r, exClosed.prod = ProdPc.publish r) ∨ exClosed.prod = ProdPc.finished) ∧
      exClosed.wg = 0 ∧ (∀ u ∈ exClosed.units, u.pc = UnitPc.terminated) ∧
      ∀ j, step exHash exClosed (Action.send j) = none) ∧
    (exClosed.closer = CloserPc.closing → exClosed.cClosed = false) ∧
    exClosed.panicked = false) :=
  ⟨by decide, rfl, rfl,
    liveness_barrier exHash [dirB, fileA, fileB] schedClosed exClosed (by decide)⟩

end Digester
